import Mathlib

/-!
Verification of the `dokearley` parsing engine (a chart-based Earley
recognizer with placeholder symbols, a derivation finder, and an
output-spec interpreter) against its natural-language specification.

The Rust sources are shallowly embedded: pure functions become Lean
functions, mutable loops become explicit state passing, `HashMap` /
`HashSet` become association lists / membership-deduplicated lists
(insertion order; the source's results are iteration-order independent
where it matters), machine integers become `Nat`/`Int` with explicit
bounds where the source checks them, and recursion that Rust bounds by
the call stack is given an explicit fuel argument that is provably (or
evidently) sufficient.  Rust panics (out-of-bounds indexing, `expect`)
are modeled with `Except` so that abnormal termination is observable.
-/

namespace Dokearley

/-! ## Spans, tokens and the tokenizer (src/recognizer.rs) -/

/-- Byte span `[start - stop)` (the source calls the second field `end`,
which is a Lean keyword). -/
structure Span where
  start : Nat
  stop : Nat
deriving DecidableEq, Repr

/-- `TokenKind` from src/recognizer.rs. -/
inductive TokenKind where
  | char
  | int
  | float
  | stringLit
deriving DecidableEq, Repr

/-- A token: kind, raw text slice, byte span.  Text is a `List Char`
(Rust `&str` slices iterate over Unicode scalar values). -/
structure Token where
  kind : TokenKind
  text : List Char
  span : Span
deriving DecidableEq, Repr

instance : Inhabited Token := ⟨⟨.char, [], ⟨0, 0⟩⟩⟩

/-- UTF-8 byte length of one Unicode scalar value (Rust `char::len_utf8`). -/
def utf8Len (c : Char) : Nat :=
  if c.toNat < 128 then 1
  else if c.toNat < 2048 then 2
  else if c.toNat < 65536 then 3
  else 4

/-- UTF-8 byte length of a character list (Rust `str::len`). -/
def byteLen : List Char → Nat
  | [] => 0
  | c :: cs => utf8Len c + byteLen cs

/-- Characters that extend a numeric run in the tokenizer:
ASCII digits and `.`. -/
def isNumChar (c : Char) : Bool := c.isDigit || c = '.'

/-- Accumulator form of `digitsVal`. -/
def digitsValAux (acc : Nat) : List Char → Nat
  | [] => acc
  | c :: cs => digitsValAux (acc * 10 + (c.toNat - 48)) cs

/-- Numeric value of a digit string (used only under an all-digits guard). -/
def digitsVal (cs : List Char) : Nat := digitsValAux 0 cs

/-- `i64::MAX`. -/
def i64Max : Nat := 9223372036854775807

/-- Whether Rust `str::parse::<i64>` succeeds on this (sign-free) text:
nonempty, all ASCII digits, value within `i64` range.  The tokenizer only
calls this on runs of digits and dots. -/
def parsesAsI64 (cs : List Char) : Bool :=
  !cs.isEmpty && cs.all Char.isDigit && decide (digitsVal cs ≤ i64Max)

/-- Whether Rust `str::parse::<f64>` succeeds on a run of digits and dots
that starts with a digit: exactly when the run has at most one dot
(overflow parses to infinity, which is still `Ok`). -/
def runParsesAsF64 (cs : List Char) : Bool := decide (cs.count '.' ≤ 1)

/-- The per-character `Char` tokens emitted when a numeric run parses as
neither `i64` nor `f64` (the `else` arm of the numeric branch). -/
def charTokens : Nat → List Char → List Token
  | _, [] => []
  | pos, c :: cs =>
    ⟨.char, [c], ⟨pos, pos + utf8Len c⟩⟩ :: charTokens (pos + utf8Len c) cs

/-- One step-bounded embedding of `tokenize` (src/recognizer.rs).  `pos` is
the current byte position; the fuel bounds the number of loop iterations
(each iteration consumes at least one character, so fuel `input.length`
is always sufficient — see `tokenizeF_fuel_irrelevant`-style lemmas below).

Branches, faithfully to the source:
* `"` — scan to the next `"` (or end of input); the token text is the
  inside only, the span covers both quotes (`start`, `str_end + 1`); the
  closing quote is skipped *unconditionally*, so an unterminated string
  advances the position one byte past the end of the input.
* ASCII digit — take the maximal run of digits and dots; emit one `Int`
  token if it parses as `i64`, else one `Float` token if it parses as
  `f64`, else one `Char` token per character of the run.
* otherwise — one `Char` token for the single scalar value. -/
def tokenizeF : Nat → Nat → List Char → List Token
  | 0, _, _ => []
  | _ + 1, _, [] => []
  | fuel + 1, pos, c :: rest =>
    if c = '"' then
      let inside := rest.takeWhile (fun ch => ch ≠ '"')
      let after := rest.drop inside.length
      ⟨.stringLit, inside, ⟨pos, pos + 1 + byteLen inside + 1⟩⟩ ::
        tokenizeF fuel (pos + 1 + byteLen inside + 1) (after.drop 1)
    else if c.isDigit then
      let run := (c :: rest).takeWhile isNumChar
      let after := (c :: rest).drop run.length
      if parsesAsI64 run then
        ⟨.int, run, ⟨pos, pos + byteLen run⟩⟩ ::
          tokenizeF fuel (pos + byteLen run) after
      else if runParsesAsF64 run then
        ⟨.float, run, ⟨pos, pos + byteLen run⟩⟩ ::
          tokenizeF fuel (pos + byteLen run) after
      else
        charTokens pos run ++ tokenizeF fuel (pos + byteLen run) after
    else
      ⟨.char, [c], ⟨pos, pos + utf8Len c⟩⟩ ::
        tokenizeF fuel (pos + utf8Len c) rest

/-- `tokenize` (src/recognizer.rs): run the loop with sufficient fuel. -/
def tokenize (input : List Char) : List Token :=
  tokenizeF input.length 0 input

/-! ## Grammar model (src/recognizer.rs, src/grammar_parser/mod.rs) -/

/-- `Symbol` from src/recognizer.rs.  A terminal carries the literal text
it must match (`List Char`, like token text); nonterminal and placeholder
names are `String`s. -/
inductive Sym where
  | terminal (lit : List Char)
  | nonTerminal (name : String)
  | placeholder (name : String) (typ : String)
deriving DecidableEq, Repr

/-- `ValueSpec` from src/grammar_parser/mod.rs (with the `Child`/`Children`
variants that src/parser.rs and the highlighter match on).  `f64` literals
are carried symbolically by their source text: the engine never computes
with them, it only moves them into values. -/
inductive ValueSpec where
  | identifier (name : String)
  | stringLiteral (s : List Char)
  | integerLiteral (i : Int)
  | floatLiteral (f : String)
  | boolLiteral (b : Bool)
  | child (c : String)
  | childrenOf (c : String)
deriving DecidableEq, Repr

/-- `OutSpec` from src/parser.rs.  Field maps (`HashMap<&str, ValueSpec>`)
are modeled as association lists built with last-insert-wins `insert`. -/
inductive OutSpec where
  | value (spec : ValueSpec)
  | resource (typ : String) (fields : List (String × ValueSpec))
  | dict (fields : List (String × ValueSpec))
  | transparent
deriving DecidableEq, Repr

/-- `Production` from src/recognizer.rs. -/
structure Prod where
  lhs : String
  rhs : List Sym
  out : OutSpec
deriving DecidableEq, Repr

instance : Inhabited Prod := ⟨⟨"", [], .transparent⟩⟩

/-- `Grammar` from src/recognizer.rs: productions in insertion order;
production ids are positions in this list. -/
structure Grammar where
  productions : List Prod
deriving DecidableEq, Repr

/-- One pass of the nullable fixed point: for each production in order, if
the lhs is not yet nullable and every rhs symbol is nullable (nonterminal:
name in the set; placeholder: type in the set; terminal: never), add the
lhs.  The evolving set is visible to later productions of the same pass,
as in the source's mutation of `nullable` inside the `for` loop. -/
def symNullable (ns : List String) : Sym → Bool
  | .terminal _ => false
  | .nonTerminal nt => ns.contains nt
  | .placeholder _ typ => ns.contains typ

/-- See `symNullable`. -/
def nullableStep (g : Grammar) (ns : List String) : List String :=
  g.productions.foldl
    (fun acc p =>
      if acc.contains p.lhs then acc
      else if p.rhs.all (symNullable acc) then acc ++ [p.lhs]
      else acc)
    ns

/-- Iterate `nullableStep` until it stops changing (the source's
`while changed` loop).  A changing pass adds at least one new lhs and at
most `|productions|` distinct lhs names ever enter, so fuel
`|productions| + 1` always reaches the fixed point. -/
def iterNullable (g : Grammar) : Nat → List String → List String
  | 0, ns => ns
  | fuel + 1, ns =>
    let ns' := nullableStep g ns
    if ns'.length = ns.length then ns else iterNullable g fuel ns'

/-- `Grammar::compute_nullable` (src/recognizer.rs). -/
def compute_nullable (g : Grammar) : List String :=
  iterNullable g (g.productions.length + 1) []

/-- `Grammar::prods_for` (src/recognizer.rs): productions with the given
lhs, with their ids. -/
def prods_for (g : Grammar) (name : String) : List (Nat × Prod) :=
  g.productions.enum.filter (fun x => x.2.lhs == name)

/-- ASCII-only lowercasing (Rust `str::to_ascii_lowercase`). -/
def asciiLower (s : String) : String :=
  ⟨s.data.map (fun c =>
    if 'A' ≤ c ∧ c ≤ 'Z' then Char.ofNat (c.toNat + 32) else c)⟩

/-- `is_builtin` (src/recognizer.rs): whether the placeholder type names a
builtin scalar class matching the token's kind. -/
def is_builtin (typ : String) (tok : Token) : Bool :=
  let t := asciiLower typ
  if t = "int" then tok.kind == TokenKind.int
  else if t = "float" then tok.kind == TokenKind.float
  else if t = "string" ∨ t = "str" then tok.kind == TokenKind.stringLit
  else false

/-! ## Chart and recognizer (src/recognizer.rs) -/

/-- `ItemKey` from src/recognizer.rs.  (`Item` carries no data beyond its
key, so the chart is modeled as sets of keys.) -/
structure ItemKey where
  prodId : Nat
  dot : Nat
  start : Nat
deriving DecidableEq, Repr

/-- The chart's per-boundary item sets: `n + 1` membership-deduplicated
lists of keys in insertion order (the source uses `HashMap<ItemKey, Item>`;
acceptance and the completed-item set are iteration-order independent). -/
abbrev Sets := List (List ItemKey)

/-- `Chart::add_item`: insert a key at a position unless already present;
return the new sets and whether anything changed. -/
def add_item (sets : Sets) (pos : Nat) (k : ItemKey) : Sets × Bool :=
  let cur := sets.getD pos []
  if k ∈ cur then (sets, false)
  else (sets.set pos (cur ++ [k]), true)

/-- Maximal rhs length over the grammar (only used as a fuel bound for
nullable advancement, whose dot strictly increases). -/
def maxRhsLen (g : Grammar) : Nat :=
  g.productions.foldl (fun m p => max m p.rhs.length) 0

/-- `Chart::add_nullable_items` (src/recognizer.rs): starting from a just
inserted item, while the symbol at the dot is nullable, advance the dot
and insert the advanced item at the same position; stop as soon as an
insertion finds its key already present.  Fuel-bounded: the dot strictly
increases, so `maxRhsLen g + 1` steps always suffice. -/
def addNullableAux (g : Grammar) (ns : List String) (pos : Nat) :
    Nat → ItemKey → Sets → Sets
  | 0, _, sets => sets
  | fuel + 1, k, sets =>
    let prod := g.productions.getD k.prodId default
    if k.dot < prod.rhs.length ∧
        symNullable ns (prod.rhs.getD k.dot (.terminal [])) then
      let k' : ItemKey := ⟨k.prodId, k.dot + 1, k.start⟩
      let r := add_item sets pos k'
      if r.2 then addNullableAux g ns pos fuel k' r.1 else r.1
    else sets

/-- See `addNullableAux`. -/
def add_nullable_items (g : Grammar) (ns : List String) (k : ItemKey)
    (pos : Nat) (sets : Sets) : Sets :=
  addNullableAux g ns pos (maxRhsLen g + 1) k sets

/-- The predictor: for every production of `name`, insert `(pid, 0, pos)`
at `pos`; on a fresh insertion set `changed` and apply nullable
advancement. -/
def predictInto (g : Grammar) (ns : List String) (pos : Nat) (name : String)
    (acc : Sets × Bool) : Sets × Bool :=
  (prods_for g name).foldl
    (fun acc pr =>
      let k : ItemKey := ⟨pr.1, 0, pos⟩
      let r := add_item acc.1 pos k
      if r.2 then (add_nullable_items g ns k pos r.1, true)
      else (r.1, acc.2))
    acc

/-- The completer: for a completed item `k`, advance every item of
`sets[k.start]` whose next symbol is the completed lhs (as nonterminal, or
as placeholder type). -/
def completeStep (g : Grammar) (pos : Nat) (k : ItemKey)
    (acc : Sets × Bool) : Sets × Bool :=
  let lhs := (g.productions.getD k.prodId default).lhs
  let waiting := (acc.1.getD k.start []).filter (fun wk =>
    let p := g.productions.getD wk.prodId default
    if wk.dot < p.rhs.length then
      match p.rhs.getD wk.dot (.terminal []) with
      | .nonTerminal n => n == lhs
      | .placeholder _ typ => typ == lhs
      | .terminal _ => false
    else false)
  waiting.foldl
    (fun acc wk =>
      let r := add_item acc.1 pos ⟨wk.prodId, wk.dot + 1, wk.start⟩
      (r.1, acc.2 || r.2))
    acc

/-- Processing of one snapshot item inside the `while changed` pass of
`Chart::recognize`: predict / scan / complete according to the symbol at
the dot.  Nullable advancement after a successful scan is *not* performed
(matching the source); nullable advancement after a predict does not set
`changed` (also matching the source — its additions are always preceded by
a successful `add_item` that set it). -/
def processItem (g : Grammar) (ns : List String) (tokens : List Token)
    (pos : Nat) (acc : Sets × Bool) (k : ItemKey) : Sets × Bool :=
  let prod := g.productions.getD k.prodId default
  if k.dot < prod.rhs.length then
    match prod.rhs.getD k.dot (.terminal []) with
    | .nonTerminal nt => predictInto g ns pos nt acc
    | .terminal lit =>
      if pos < tokens.length ∧ (tokens.getD pos default).text = lit then
        let r := add_item acc.1 (pos + 1) ⟨k.prodId, k.dot + 1, k.start⟩
        (r.1, acc.2 || r.2)
      else acc
    | .placeholder _ typ =>
      if pos < tokens.length ∧ is_builtin typ (tokens.getD pos default) then
        let r := add_item acc.1 (pos + 1) ⟨k.prodId, k.dot + 1, k.start⟩
        (r.1, acc.2 || r.2)
      else predictInto g ns pos typ acc
  else completeStep g pos k acc

/-- One `while changed` pass at position `pos`: snapshot the keys of
`sets[pos]`, process each in order, accumulating the `changed` flag. -/
def passOnce (g : Grammar) (ns : List String) (tokens : List Token)
    (pos : Nat) (sets : Sets) : Sets × Bool :=
  (sets.getD pos []).foldl (processItem g ns tokens pos) (sets, false)

/-- The `while changed` loop at one position, fuel-bounded.  Each changing
pass inserts at least one new item into the (finite) chart, so a fuel of
one more than the total key bound reaches the fixed point (theorem
`C8_recognize_terminates`). -/
def whileChanged (g : Grammar) (ns : List String) (tokens : List Token)
    (pos : Nat) : Nat → Sets → Sets
  | 0, sets => sets
  | fuel + 1, sets =>
    let r := passOnce g ns tokens pos sets
    if r.2 then whileChanged g ns tokens pos fuel r.1 else r.1

/-- Upper bound on the number of distinct valid keys a single chart set
can hold: production ids times dotted positions times start positions. -/
def keyBound (g : Grammar) (n : Nat) : Nat :=
  g.productions.length * (maxRhsLen g + 1) * (n + 1)

/-- Fuel that always reaches the fixed point of every `while changed` loop:
one more than the total number of distinct valid keys in the whole chart. -/
def loopFuel (g : Grammar) (n : Nat) : Nat := keyBound g n * (n + 1) + 1

/-- Chart initialization plus `Chart::recognize` with explicit fuel for
the inner `while changed` loops. -/
def recognizeFuel (g : Grammar) (tokens : List Token) (start : String)
    (fuel : Nat) : Sets :=
  let n := tokens.length
  let ns := compute_nullable g
  let init : Sets :=
    (prods_for g start).foldl
      (fun s pr =>
        let k : ItemKey := ⟨pr.1, 0, 0⟩
        add_nullable_items g ns k 0 (add_item s 0 k).1)
      (List.replicate (n + 1) [])
  (List.range (n + 1)).foldl
    (fun s pos => whileChanged g ns tokens pos fuel s) init

/-- `Chart::recognize` (src/recognizer.rs) with its provably sufficient
fuel. -/
def recognize (g : Grammar) (tokens : List Token) (start : String) : Sets :=
  recognizeFuel g tokens start (loopFuel g tokens.length)

/-- `Chart::accepted` (src/recognizer.rs): some item of the final set has
`start = 0`, a dot at the end of its rhs, and the start symbol as lhs. -/
def accepted (g : Grammar) (tokens : List Token) (sets : Sets)
    (start : String) : Bool :=
  (sets.getD tokens.length []).any (fun k =>
    let p := g.productions.getD k.prodId default
    k.start == 0 && k.dot == p.rhs.length && p.lhs == start)

/-- The "basic expr" grammar from the source's recognizer tests:
`Expr → Term + Expr | Term`, `Term → {n:Int} | {x:Float} | {s:String}`. -/
def basicExprGrammar : Grammar :=
  ⟨[⟨"Expr", [.nonTerminal "Term", .terminal ['+'], .nonTerminal "Expr"],
      .value (.floatLiteral "21.1")⟩,
    ⟨"Expr", [.nonTerminal "Term"], .value (.floatLiteral "21.1")⟩,
    ⟨"Term", [.placeholder "n" "Int"], .value (.floatLiteral "21.1")⟩,
    ⟨"Term", [.placeholder "x" "Float"], .value (.floatLiteral "21.1")⟩,
    ⟨"Term", [.placeholder "s" "String"], .value (.floatLiteral "21.1")⟩]⟩

/-! ## Derivation finder (src/parser.rs) -/

/-- `Edge` from src/parser.rs: a completed production (or terminal match)
spanning from the chart bucket it is stored in to `finish`.  The source
uses `rule = usize::MAX` as the terminal-edge sentinel; it is modeled as
`none`. -/
structure Edge where
  rule : Option Nat
  finish : Nat
deriving DecidableEq, Repr

/-- Stable insertion into a `le`-sorted list (used to model
`sort_by`; the source's comparator is a total order without ties on the
edges actually stored, so stability is irrelevant). -/
def insSorted {α : Type} (le : α → α → Bool) (x : α) : List α → List α
  | [] => [x]
  | y :: ys => if le y x then y :: insSorted le x ys else x :: y :: ys

/-- Insertion sort by a boolean total order. -/
def sortBy {α : Type} (le : α → α → Bool) : List α → List α
  | [] => []
  | x :: xs => insSorted le x (sortBy le xs)

/-- The edge comparator `(rule ascending, finish ascending)`; the `none`
sentinel is `usize::MAX`, larger than every real id (it never occurs in
stored edges). -/
def edgeLE (a b : Edge) : Bool :=
  match a.rule, b.rule with
  | some x, some y => x < y || (x == y && a.finish ≤ b.finish)
  | some _, none => true
  | none, some _ => false
  | none, none => a.finish ≤ b.finish

/-- `Chart::chart_of_items` (src/parser.rs): for every completed item
`(pid, |rhs|, start)` found at boundary `i`, record edge `(pid, i)` in
bucket `start`; sort each bucket by `(rule, finish)`. -/
def chart_of_items (g : Grammar) (sets : Sets) : List (List Edge) :=
  let base : List (List Edge) := List.replicate sets.length []
  let filled := sets.enum.foldl
    (fun ch iset =>
      iset.2.foldl
        (fun ch k =>
          let prod := g.productions.getD k.prodId default
          if k.dot = prod.rhs.length then
            ch.set k.start (ch.getD k.start [] ++ [⟨some k.prodId, iset.1⟩])
          else ch)
        ch)
    base
  filled.map (sortBy edgeLE)

/-- Abnormal termination of the derivation finder, observable in the
model: `tokenIndexOOB` is the unchecked `tokens[cur_start]` indexing in
`top_list`'s placeholder arm; `noPath` is the
`.expect("recogniser invariants should guarantee a solution")` panic;
`fuelExhausted` is a model artifact that sufficient fuel never reaches. -/
inductive Panic where
  | tokenIndexOOB
  | noPath
  | fuelExhausted
deriving DecidableEq, Repr

/-- The `edges_fn` closure of `Chart::top_list` (src/parser.rs): the
candidate edges for rhs position `depth` when the cursor is at input
boundary `cur`.  Faithfully to the source, the placeholder arm evaluates
`is_builtin(typ, &tokens[cur_start])` *before* any bounds check, which
panics when `cur` is past the last token. -/
def edgesFnProd (g : Grammar) (chart : List (List Edge)) (tokens : List Token)
    (symbols : List Sym) (depth cur : Nat) : Except Panic (List Edge) :=
  if depth ≥ symbols.length then .ok []
  else
    match symbols.getD depth (.terminal []) with
    | .terminal lit =>
      .ok (if cur < tokens.length ∧ (tokens.getD cur default).text = lit then
        [⟨none, cur + 1⟩] else [])
    | .nonTerminal name =>
      .ok (if cur < chart.length then
        (chart.getD cur []).filter (fun e =>
          (g.productions.getD (e.rule.getD 0) default).lhs == name)
      else [])
    | .placeholder _ typ =>
      if cur < tokens.length then
        if is_builtin typ (tokens.getD cur default) then .ok [⟨none, cur + 1⟩]
        else if cur < chart.length then
          .ok ((chart.getD cur []).filter (fun e =>
            (g.productions.getD (e.rule.getD 0) default).lhs == typ))
        else .ok []
      else .error .tokenIndexOOB

/-- First-success iteration over candidate edges inside the `dfs` of
`top_list` (the `for edge in edges_fn(..)` loop). -/
def dfsTry (recDfs : Nat → Except Panic (Option (List (Nat × Edge))))
    (cur : Nat) : List Edge → Except Panic (Option (List (Nat × Edge)))
  | [] => .ok none
  | e :: es =>
    match recDfs e.finish with
    | .error p => .error p
    | .ok (some path) => .ok (some ((cur, e) :: path))
    | .ok none => dfsTry recDfs cur es

/-- The `dfs` of `Chart::top_list`: seek a sequence of edges matching the
rhs symbols from `depth`/`cur` to `(bottom, finish)`.  The depth strictly
increases towards `symbols.length`, so fuel `symbols.length + 1` always
suffices. -/
def dfsGo (g : Grammar) (chart : List (List Edge)) (tokens : List Token)
    (symbols : List Sym) (finish : Nat) :
    Nat → Nat → Nat → Except Panic (Option (List (Nat × Edge)))
  | fuel, depth, cur =>
    if depth = symbols.length ∧ cur = finish then .ok (some [])
    else
      match fuel with
      | 0 => .error .fuelExhausted
      | f + 1 =>
        match edgesFnProd g chart tokens symbols depth cur with
        | .error p => .error p
        | .ok es =>
          dfsTry (fun c => dfsGo g chart tokens symbols finish f (depth + 1) c)
            cur es

/-- `Chart::top_list` (src/parser.rs): reconstruct the child edges of a
completed edge; the `None` outcome of the search is the source's
`.expect(..)` panic. -/
def top_list (g : Grammar) (chart : List (List Edge)) (tokens : List Token)
    (start : Nat) (e : Edge) : Except Panic (List (Nat × Edge)) :=
  let symbols := (g.productions.getD (e.rule.getD 0) default).rhs
  match dfsGo g chart tokens symbols e.finish (symbols.length + 1) 0 start with
  | .error p => .error p
  | .ok (some path) => .ok path
  | .ok none => .error .noPath

/-- A parse tree (src/parser.rs): token leaf, or interior node carrying
its production and children. -/
inductive ParseTree where
  | token (tok : Token)
  | node (rule : Prod) (children : List ParseTree)
deriving Repr

instance : Inhabited ParseTree := ⟨.token default⟩

/-- Sequencing of child reconstruction inside `build` (src/parser.rs),
parameterized by the recursive builder. -/
def buildChildrenWith (recB : Nat → Edge → Except Panic ParseTree) :
    List (Nat × Edge) → Except Panic (List ParseTree)
  | [] => .ok []
  | se :: rest =>
    match recB se.1 se.2 with
    | .error p => .error p
    | .ok t =>
      match buildChildrenWith recB rest with
      | .error p => .error p
      | .ok ts => .ok (t :: ts)

/-- The recursive `build` of `Chart::build_parse_tree` (src/parser.rs):
terminal edges become token leaves; other edges reconstruct their child
path and recurse.  Rust bounds the recursion by the call stack; the model
gives it fuel (ambiguity-free finite derivations need no more fuel than
the tree height). -/
def buildNode (g : Grammar) (chart : List (List Edge)) (tokens : List Token) :
    Nat → Nat → Edge → Except Panic ParseTree
  | 0, _, _ => .error .fuelExhausted
  | fuel + 1, start, e =>
    match e.rule with
    | none => .ok (.token (tokens.getD start default))
    | some pid =>
      match top_list g chart tokens start e with
      | .error p => .error p
      | .ok path =>
        match buildChildrenWith (buildNode g chart tokens fuel) path with
        | .error p => .error p
        | .ok cs => .ok (.node (g.productions.getD pid default) cs)

/-- `Chart::build_parse_tree` (src/parser.rs): find a top edge (bucket 0,
finishing at the last boundary, lhs equal to the start symbol) and build
from it; `.ok none` is the source's `None` (no top edge). -/
def build_parse_tree (g : Grammar) (tokens : List Token) (sets : Sets)
    (startSym : String) (fuel : Nat) : Except Panic (Option ParseTree) :=
  let chart := chart_of_items g sets
  let finishPos := chart.length - 1
  match (chart.getD 0 []).find? (fun e =>
      e.finish == finishPos &&
      (g.productions.getD (e.rule.getD 0) default).lhs == startSym) with
  | none => .ok none
  | some top =>
    match buildNode g chart tokens fuel 0 top with
    | .error p => .error p
    | .ok t => .ok (some t)

/-! ## Output-spec interpreter (src/parser.rs) -/

/-- The runtime `Value` (src/parser.rs).  `f64` is carried symbolically
(no float computation happens anywhere in the interpreter); field maps
are association lists built with last-insert-wins `insertKV`. -/
inductive Value where
  | integer (i : Int)
  | float (f : String)
  | bool (b : Bool)
  | string (s : List Char)
  | resource (typ : String) (fields : List (String × Value))
  | dictionary (fields : List (String × Value))
  | childRef (c : String)
  | childrenRef (c : String)
deriving Repr

/-- `HashMap::insert`: replace the value in place if the key is present,
otherwise append. -/
def insertKV {α : Type} (m : List (String × α)) (k : String) (v : α) :
    List (String × α) :=
  if m.any (fun kv => kv.1 == k) then
    m.map (fun kv => if kv.1 == k then (k, v) else kv)
  else m ++ [(k, v)]

/-- `HashMap` lookup. -/
def lookupKV {α : Type} (m : List (String × α)) (k : String) : Option α :=
  (m.find? (fun kv => kv.1 == k)).map (fun kv => kv.2)

/-- `str::parse::<i64>`: optional sign, nonempty all-digit body, value in
`i64` range. -/
def parseI64Val (cs : List Char) : Option Int :=
  match cs with
  | '+' :: ds =>
    if !ds.isEmpty && ds.all Char.isDigit && decide (digitsVal ds ≤ i64Max) then
      some (digitsVal ds)
    else none
  | '-' :: ds =>
    if !ds.isEmpty && ds.all Char.isDigit && decide (digitsVal ds ≤ i64Max + 1) then
      some (-(digitsVal ds : Int))
    else none
  | ds =>
    if !ds.isEmpty && ds.all Char.isDigit && decide (digitsVal ds ≤ i64Max) then
      some (digitsVal ds)
    else none

/-- `Token::get_value` (src/recognizer.rs).  `Float` token text is carried
symbolically (every `Float` token the tokenizer makes has parseable
text). -/
def tokenValue (tok : Token) : Option Value :=
  match tok.kind with
  | .int => (parseI64Val tok.text).map .integer
  | .float => some (.float (String.mk tok.text))
  | .stringLit => some (.string tok.text)
  | .char => none

/-- `ParseTree::find_placeholder` (src/parser.rs), parameterized by the
evaluation of the matched child (both this helper and the inline
`find_map` of the `Identifier` arm pair the node's rhs with its children
and evaluate the child behind the first placeholder with the given name;
token leaves yield nothing). -/
def findPhWith (cv : ParseTree → Value) (name : String) :
    ParseTree → Option Value
  | .node rule cs =>
    (rule.rhs.zip cs).findSome? (fun sc =>
      match sc.1 with
      | .placeholder n _ => if n = name then some (cv sc.2) else none
      | _ => none)
  | .token _ => none

/-- The field map a `Resource` output collects from the rhs (src/parser.rs):
placeholders bind their child's value under the placeholder name;
nonterminal children whose value is a `Resource` of the reserved type
`__Propagate__` have their fields merged in; other nonterminal children
nest under the nonterminal name; terminals are skipped. -/
def resourceFieldsWith (cv : ParseTree → Value) (rhs : List Sym)
    (cs : List ParseTree) : List (String × Value) :=
  rhs.enum.foldl
    (fun m isym =>
      match isym.2 with
      | .placeholder name _ => insertKV m name (cv (cs.getD isym.1 default))
      | .nonTerminal nt =>
        match cv (cs.getD isym.1 default) with
        | .resource t f =>
          if t = "__Propagate__" then
            f.foldl (fun m kv => insertKV m kv.1 kv.2) m
          else insertKV m nt (.resource t f)
        | v => insertKV m nt v
      | .terminal _ => m)
    []

/-- The field map a `Dict` output collects from the rhs (src/parser.rs):
like `resourceFieldsWith` but *without* the `__Propagate__` merge —
nonterminal children always nest under the nonterminal name. -/
def dictFieldsWith (cv : ParseTree → Value) (rhs : List Sym)
    (cs : List ParseTree) : List (String × Value) :=
  rhs.enum.foldl
    (fun m isym =>
      match isym.2 with
      | .placeholder name _ => insertKV m name (cv (cs.getD isym.1 default))
      | .nonTerminal nt => insertKV m nt (cv (cs.getD isym.1 default))
      | .terminal _ => m)
    []

/-- Static-field resolution in the `Resource` arm (src/parser.rs): an
`Identifier` searches the *children* (one production level down) for a
placeholder of that name; missing yields `"<missing_i>"`. -/
def staticValResource (cv : ParseTree → Value) (cs : List ParseTree) :
    ValueSpec → Value
  | .identifier n =>
    (cs.findSome? (findPhWith cv n)).getD (.string "<missing_i>".data)
  | .integerLiteral i => .integer i
  | .floatLiteral f => .float f
  | .stringLiteral s => .string s
  | .boolLiteral b => .bool b
  | .child c => .childRef c
  | .childrenOf c => .childrenRef c

/-- Static-field resolution in the `Dict` arm (src/parser.rs): an
`Identifier` searches the node's *own* rhs (`self.find_placeholder`);
missing yields `"<missing related placeholder>"`. -/
def staticValDict (cv : ParseTree → Value) (rule : Prod)
    (cs : List ParseTree) : ValueSpec → Value
  | .identifier n =>
    (findPhWith cv n (.node rule cs)).getD
      (.string "<missing related placeholder>".data)
  | .integerLiteral i => .integer i
  | .floatLiteral f => .float f
  | .stringLiteral s => .string s
  | .boolLiteral b => .bool b
  | .child c => .childRef c
  | .childrenOf c => .childrenRef c

/-- `ParseTree::compute_value` (src/parser.rs), fuel-indexed: the source
recursion is bounded by the (finite) tree, the model by fuel exceeding
the tree height.  `fuel = 0` (never reached from sufficient fuel) yields
an arbitrary value. -/
def compute_value : Nat → ParseTree → Value
  | 0, _ => .bool false
  | _ + 1, .token tok => (tokenValue tok).getD (.string tok.text)
  | fuel + 1, .node rule cs =>
    match rule.out with
    | .value spec =>
      match spec with
      | .integerLiteral i => .integer i
      | .floatLiteral f => .float f
      | .stringLiteral s => .string s
      | .boolLiteral b => .bool b
      | .identifier name =>
        (cs.findSome? (findPhWith (compute_value fuel) name)).getD
          (.string "<missing_placeholder>".data)
      | .child c => .childRef c
      | .childrenOf c => .childrenRef c
    | .resource typ fields =>
      .resource typ
        (fields.foldl
          (fun m kv =>
            insertKV m kv.1 (staticValResource (compute_value fuel) cs kv.2))
          (resourceFieldsWith (compute_value fuel) rule.rhs cs))
    | .transparent => compute_value fuel (cs.getD 0 default)
    | .dict fields =>
      .dictionary
        (fields.foldl
          (fun m kv =>
            insertKV m kv.1 (staticValDict (compute_value fuel) rule cs kv.2))
          (dictFieldsWith (compute_value fuel) rule.rhs cs))

/-! ## Error reporter (src/try_accept.rs) -/

/-- Membership-deduplicating insertion (`HashSet::insert`). -/
def insertSym (s : List Sym) (x : Sym) : List Sym :=
  if x ∈ s then s else s ++ [x]

/-- `HashSet::extend`. -/
def extendSyms (s : List Sym) (xs : List Sym) : List Sym :=
  xs.foldl insertSym s

/-- `HashMap::entry(k).or_default()`: make sure the key exists. -/
def ensureKey (m : List (String × List Sym)) (k : String) :
    List (String × List Sym) :=
  if m.any (fun kv => kv.1 == k) then m else m ++ [(k, [])]

/-- Initialization of `compute_first_sets`: one (empty) entry per lhs and
per nonterminal / placeholder type occurring in a rhs. -/
def firstInit (g : Grammar) : List (String × List Sym) :=
  g.productions.foldl
    (fun m p =>
      p.rhs.foldl
        (fun m sym =>
          match sym with
          | .placeholder _ typ => ensureKey m typ
          | .nonTerminal nt => ensureKey m nt
          | .terminal _ => m)
        (ensureKey m p.lhs))
    []

/-- One fixed-point pass of `compute_first_sets` (src/try_accept.rs):
accumulate per-lhs updates from each production's first rhs symbol, then
merge them into the map. -/
def firstStep (g : Grammar) (first : List (String × List Sym)) :
    List (String × List Sym) :=
  let updates := g.productions.foldl
    (fun upd p =>
      let newSyms : List Sym :=
        match p.rhs.head? with
        | none => []
        | some (.terminal lit) => [.terminal lit]
        | some (.nonTerminal nt) => (lookupKV first nt).getD []
        | some (.placeholder _ typ) => (lookupKV first typ).getD []
      let upd := ensureKey upd p.lhs
      upd.map (fun kv =>
        if kv.1 == p.lhs then (kv.1, extendSyms kv.2 newSyms) else kv))
    []
  updates.foldl
    (fun first kv =>
      first.map (fun fkv =>
        if fkv.1 == kv.1 then (fkv.1, extendSyms fkv.2 kv.2) else fkv))
    first

/-- Total number of symbols stored in a first-set map (for change
detection and as a fuel bound). -/
def firstTotal (m : List (String × List Sym)) : Nat :=
  m.foldl (fun a kv => a + kv.2.length) 0

/-- The `while changed` loop of `compute_first_sets`. -/
def iterFirst (g : Grammar) : Nat → List (String × List Sym) →
    List (String × List Sym)
  | 0, m => m
  | fuel + 1, m =>
    let m' := firstStep g m
    if firstTotal m' = firstTotal m then m else iterFirst g fuel m'

/-- Total number of rhs symbols plus productions (a crude bound on how
many symbols can ever enter one first set). -/
def symCount (g : Grammar) : Nat :=
  g.productions.foldl (fun a p => a + 1 + p.rhs.length) 0

/-- `Grammar::compute_first_sets` (src/try_accept.rs): each changing pass
grows the total size, which is bounded by `|keys| * |symbols|`, so the
fuel below always reaches the fixed point. -/
def compute_first_sets (g : Grammar) : List (String × List Sym) :=
  iterFirst g ((firstInit g).length * symCount g + 1) (firstInit g)

/-- `Display` for `Symbol` (src/recognizer.rs). -/
def symToString : Sym → String
  | .terminal s => String.mk s
  | .placeholder name typ => "<" ++ name ++ ":" ++ typ ++ ">"
  | .nonTerminal s => s

/-- `expected_tokens` (src/try_accept.rs): a terminal is expected as
itself; a nonterminal contributes its (formatted) first set; placeholders
contribute nothing. -/
def expected_tokens (sym : Sym) (first : List (String × List Sym)) :
    List String :=
  match sym with
  | .terminal s => [String.mk s]
  | .nonTerminal nt => ((lookupKV first nt).getD []).map symToString
  | .placeholder _ _ => []

/-- `format_item` (src/try_accept.rs): lhs, arrow, rhs with a bullet at
the dot, joined without separators. -/
def format_item (lhs : String) (rhs : List Sym) (dot : Nat) : String :=
  let parts :=
    (rhs.enum.foldl
      (fun acc isym =>
        acc ++ (if isym.1 = dot then ["•"] else []) ++ [symToString isym.2])
      []) ++ (if dot = rhs.length then ["•"] else [])
  lhs ++ " -> " ++ String.intercalate "" parts

/-- `ParseError` (src/try_accept.rs). -/
structure ParseErr where
  pos : Nat
  found : Option (List Char)
  expected : List String
  items : List String
deriving DecidableEq, Repr

/-- `Vec::dedup`: drop *consecutive* duplicates. -/
def dedupAdj {α : Type} [BEq α] : List α → List α
  | [] => []
  | [x] => [x]
  | x :: y :: rest =>
    if x == y then dedupAdj (y :: rest) else x :: dedupAdj (y :: rest)

/-- Whether a chart set holds an in-progress item (`dot < |rhs|`). -/
def hasInProgress (g : Grammar) (set : List ItemKey) : Bool :=
  set.any (fun k => k.dot < (g.productions.getD k.prodId default).rhs.length)

/-- The furthest-position scan of `Chart::try_accept` (src/try_accept.rs):
walk the sets in order, remembering the last index whose set has an
in-progress item (0 if none has). -/
def furthestPos (g : Grammar) (sets : Sets) : Nat :=
  sets.enum.foldl
    (fun acc iset => if hasInProgress g iset.2 then iset.1 else acc) 0

/-- `Chart::try_accept` (src/try_accept.rs). -/
def try_accept (g : Grammar) (tokens : List Token) (sets : Sets)
    (start : String) : Except ParseErr Unit :=
  if accepted g tokens sets start then .ok ()
  else
    let first := compute_first_sets g
    let fp := furthestPos g sets
    let found := (tokens.get? fp).map (fun t => t.text)
    let exps := (sets.getD fp []).foldl
      (fun acc k =>
        let p := g.productions.getD k.prodId default
        if k.dot < p.rhs.length then
          acc ++ expected_tokens (p.rhs.getD k.dot (.terminal [])) first
        else acc)
      []
    let items := (sets.getD fp []).foldl
      (fun acc k =>
        let p := g.productions.getD k.prodId default
        if k.dot < p.rhs.length then acc ++ [format_item p.lhs p.rhs k.dot]
        else acc)
      []
    .error ⟨fp, found, dedupAdj (sortBy (fun a b : String => decide (a ≤ b)) exps),
      items⟩

/-! ## Nullable-cycle detection (src/recognizer.rs, `has_infinite_loop`) -/

/-- Membership-deduplicating insertion for strings (`HashSet::insert`). -/
def insertStr (s : List String) (x : String) : List String :=
  if x ∈ s then s else s ++ [x]

/-- The adjacency of the nullable-dependency graph (src/recognizer.rs):
for vertex `v`, gather every nonterminal and placeholder type mentioned in
a production of `v` whose rhs is entirely nullable, then keep only the
nullable ones. -/
def adjChildren (g : Grammar) (ns : List String) (v : String) : List String :=
  let children := (prods_for g v).foldl
    (fun acc pr =>
      if pr.2.rhs.all (symNullable ns) then
        pr.2.rhs.foldl
          (fun acc s =>
            match s with
            | .nonTerminal nt => insertStr acc nt
            | .placeholder _ typ => insertStr acc typ
            | .terminal _ => acc)
          acc
      else acc)
    []
  children.filter (fun c => ns.contains c)

/-- The three-coloring of the source's cycle-detecting DFS, as two lists:
`visiting` is color 1 (the current stack, most recent first), `done` is
color 2 (finished, most recently finished first); everything else is
color 0. -/
structure DfsSt where
  visiting : List String
  done : List String
deriving DecidableEq, Repr

/-- The neighbor loop of `dfs` (src/recognizer.rs), parameterized by the
recursive call: skip finished neighbors, report a cycle on a back edge to
the visiting stack, recurse into fresh neighbors. -/
def dfsList (recDfs : String → DfsSt → DfsSt × Bool) :
    List String → DfsSt → DfsSt × Bool
  | [], st => (st, false)
  | w :: ws, st =>
    if w ∈ st.done then dfsList recDfs ws st
    else if w ∈ st.visiting then (st, true)
    else
      match recDfs w st with
      | (st', true) => (st', true)
      | (st', false) => dfsList recDfs ws st'

/-- `dfs` (src/recognizer.rs): push `v`, process its neighbors, then move
`v` to `done` (on a `false` return the callee has restored the stack, so
the caller's stack is reinstated verbatim).  Fuel-bounded: each nested
call is on a fresh vertex, so `|vertices| + 1` suffices. -/
def dfsA (adj : String → List String) : Nat → String → DfsSt → DfsSt × Bool
  | 0, _, st => (st, false)
  | fuel + 1, v, st =>
    match dfsList (dfsA adj fuel) (adj v) ⟨v :: st.visiting, st.done⟩ with
    | (st', true) => (st', true)
    | (st', false) => (⟨st.visiting, v :: st'.done⟩, false)

/-- The top-level vertex loop of `has_infinite_loop`: start a DFS from
every still-uncolored vertex. -/
def dfsTop (adj : String → List String) (fuel : Nat) :
    List String → DfsSt → Bool
  | [], _ => false
  | s :: rest, st =>
    if s ∈ st.done ∨ s ∈ st.visiting then dfsTop adj fuel rest st
    else
      match dfsA adj fuel s st with
      | (_, true) => true
      | (st', false) => dfsTop adj fuel rest st'

/-- `Grammar::has_infinite_loop` (src/recognizer.rs). -/
def has_infinite_loop (g : Grammar) : Bool :=
  let ns := compute_nullable g
  if ns.isEmpty then false
  else dfsTop (adjChildren g ns) (ns.length + 1) ns ⟨[], []⟩

/-! ## Grammar-file rules and the engine (src/grammar_parser/mod.rs,
src/conversion.rs, src/lib.rs) -/

/-- `grammar_parser::Symbol` (src/grammar_parser/mod.rs): the symbols the
surface parser produces (terminal text not yet split into characters). -/
inductive GSym where
  | terminal (s : List Char)
  | placeholder (name : String) (typ : String)
  | nonTerminal (name : String)
deriving DecidableEq, Repr

/-- `RuleRhs` (src/grammar_parser/mod.rs). -/
inductive RuleRhs where
  | type (name : String)
  | typeWithFields (name : String) (fields : List (String × ValueSpec))
  | dictionary (fields : List (String × ValueSpec))
  | transparent
deriving DecidableEq, Repr

/-- `Pattern` (src/grammar_parser/mod.rs). -/
inductive GPattern where
  | normal (syms : List GSym)
  | disjunction (syms : List GSym)
deriving DecidableEq, Repr

/-- `Rule` (src/grammar_parser/mod.rs). -/
structure Rule where
  lhs : String
  pattern : GPattern
  rhs : Option RuleRhs
deriving DecidableEq, Repr

/-- `From<Option<RuleRhs>> for OutSpec` (src/grammar_parser/mod.rs).
Note the `None` arm: an absent output specification becomes an *empty
untyped dictionary*. -/
def outSpecFromOpt : Option RuleRhs → OutSpec
  | some (.type t) => .resource t []
  | some (.typeWithFields t fs) =>
    .resource t (fs.foldl (fun m kv => insertKV m kv.1 kv.2) [])
  | some .transparent => .transparent
  | some (.dictionary fs) =>
    .dict (fs.foldl (fun m kv => insertKV m kv.1 kv.2) [])
  | none => .dict []

/-- `From<grammar_parser::Symbol> for Vec<recognizer::Symbol>`
(src/conversion.rs): terminal text is split into one single-character
terminal per Unicode scalar value. -/
def convertGSym : GSym → List Sym
  | .terminal s => s.map (fun c => .terminal [c])
  | .placeholder n t => [.placeholder n t]
  | .nonTerminal n => [.nonTerminal n]

/-- `From<&Vec<Rule>> for Grammar` composed with the production conversion
(src/grammar_parser/mod.rs and src/conversion.rs): a `Normal` rule yields
one production with the converted, flattened rhs and
`OutSpec::from(rule.rhs)`; a `Disjunction` rule yields one `Transparent`
production per alternative. -/
def grammarFromRules (rs : List Rule) : Grammar :=
  ⟨rs.foldl
    (fun ps r =>
      match r.pattern with
      | .normal syms =>
        ps ++ [⟨r.lhs, syms.foldr (fun s acc => convertGSym s ++ acc) [],
          outSpecFromOpt r.rhs⟩]
      | .disjunction syms =>
        ps ++ syms.map (fun nt => ⟨r.lhs, convertGSym nt, .transparent⟩))
    []⟩

/-- `rules()` (src/grammar_parser/mod.rs).  The source intends to default
a missing output to `Type(lhs)`, but it maps over a *clone*
(`r.clone().iter_mut().for_each(..)`) and then returns the original
vector `r` — the mutated clone is discarded, so the parsed rules come
through unchanged and a missing output stays `None`. -/
def rulesApplyDefault (rs : List Rule) : List Rule :=
  let _defaulted := rs.map (fun r =>
    if r.rhs.isNone then { r with rhs := some (.type r.lhs) } else r)
  rs

/-- The defaulting the spec describes, as a second definition following
the spec's words ("If the output is omitted, the default is `Type(lhs)`"),
for comparison with `rulesApplyDefault`. -/
def applyDefaultSpec (rs : List Rule) : List Rule :=
  rs.map (fun r =>
    if r.rhs.isNone then { r with rhs := some (.type r.lhs) } else r)

/-- `DokearleyError` (src/lib.rs). -/
inductive DokErr where
  | invalidDokedef
  | parseErr (e : ParseErr)
  | buildTreeBug
  | infiniteNullableLoop
deriving DecidableEq, Repr

/-- `Dokearley::from_dokedef` (src/lib.rs) after the surface parse has
produced its rule list: build the grammar and reject it when
`has_infinite_loop` holds. -/
def from_dokedef_rules (rs : List Rule) : Except DokErr Grammar :=
  let g := grammarFromRules (rulesApplyDefault rs)
  if has_infinite_loop g then .error .infiniteNullableLoop else .ok g

/-- `Dokearley::parse` (src/lib.rs): tokenize, recognize, report errors
through `try_accept`, build one derivation tree, interpret it.  The outer
`Except Panic` carries abnormal termination of the derivation finder; the
inner value is the function's actual return.  `fuel` bounds the tree
builder's and interpreter's recursion depth (any value above the actual
derivation height gives the source behavior). -/
def parseInput (g : Grammar) (input : List Char) (start : String)
    (fuel : Nat) : Except Panic (Except DokErr Value) :=
  let tokens := tokenize input
  let sets := recognize g tokens start
  match try_accept g tokens sets start with
  | .error e => .ok (.error (.parseErr e))
  | .ok _ =>
    match build_parse_tree g tokens sets start fuel with
    | .error p => .error p
    | .ok none => .ok (.error .buildTreeBug)
    | .ok (some tree) => .ok (.ok (compute_value fuel tree))

/-! ## Specification-side definitions used by the claims -/

/-- Concatenation of token texts (claim C4). -/
def concatTexts : List Token → List Char
  | [] => []
  | t :: ts => t.text ++ concatTexts ts

/-- The spans of a token list form a contiguous, non-overlapping chain
from `pos` to `stop`: each token starts where the previous one ended and
spans forward (claim C4). -/
def spansChain : Nat → Nat → List Token → Prop
  | pos, stop, [] => pos = stop
  | pos, stop, t :: ts =>
    t.span.start = pos ∧ pos ≤ t.span.stop ∧ spansChain t.span.stop stop ts

/-- Nonempty directed paths. -/
inductive PathE (E : String → String → Prop) : String → String → Prop where
  | single {a b : String} : E a b → PathE E a b
  | cons {a b c : String} : E a b → PathE E b c → PathE E a c

/-- The spec's nullable-dependency edge (§4.2, claim C7): `A → B` iff `A`
is a nullable name and some production of `A` has an entirely nullable
rhs that mentions `B` as a nonterminal or as a placeholder type. -/
def NullEdge (g : Grammar) (a b : String) : Prop :=
  a ∈ compute_nullable g ∧
  ∃ p ∈ g.productions, p.lhs = a ∧
    (∀ s ∈ p.rhs, symNullable (compute_nullable g) s = true) ∧
    ((.nonTerminal b) ∈ p.rhs ∨ ∃ n, (.placeholder n b) ∈ p.rhs)

/-- The spec's rejection condition (claim C7): the nullable-dependency
graph has a directed cycle. -/
def HasNullCycle (g : Grammar) : Prop :=
  ∃ v, PathE (NullEdge g) v v

/-- The edge relation actually traversed by the source's DFS (claim C7):
from a vertex of the graph to one of its adjacency-list entries. -/
def AdjEdge (adj : String → List String) (V : List String)
    (v w : String) : Prop :=
  v ∈ V ∧ w ∈ adj v

/-- The finished list of the DFS is topologically ranked: every neighbor
of an entry was finished strictly earlier (appears later in the list,
which is most-recently-finished first).  Such a list can contain no cycle
(claim C7). -/
def Ranked (adj : String → List String) : List String → Prop
  | [] => True
  | u :: rest => (∀ w ∈ adj u, w ∈ rest) ∧ Ranked adj rest

/-- The visiting stack of the DFS is a path: each entry is an adjacency
child of the entry below it (claim C7). -/
def StackInv (adj : String → List String) : List String → Prop
  | [] => True
  | [_] => True
  | w :: v :: rest => w ∈ adj v ∧ StackInv adj (v :: rest)

/-- Invariant of the DFS `done` list: ranked, duplicate-free, and inside
the vertex set (claim C7). -/
def DoneOK (adj : String → List String) (V : List String)
    (st : DfsSt) : Prop :=
  Ranked adj st.done ∧ st.done.Nodup ∧ ∀ x ∈ st.done, x ∈ V

/-- Number of still-uncolored vertices, the fuel measure of the DFS
(claim C7). -/
def freshCountV (V : List String) (st : DfsSt) : Nat :=
  (V.filter (fun x => !(st.visiting.contains x || st.done.contains x))).length

/-- Total number of items in the chart (the termination measure of the
`while changed` loops, claim C8). -/
def chartCount (sets : Sets) : Nat :=
  sets.foldl (fun a s => a + s.length) 0

/-- A key is valid for a grammar and token count: real production id, dot
within the rhs, start within the boundaries (claim C8). -/
def ValidKey (g : Grammar) (n : Nat) (k : ItemKey) : Prop :=
  k.prodId < g.productions.length ∧
  k.dot ≤ (g.productions.getD k.prodId default).rhs.length ∧
  k.start ≤ n

/-- Chart invariant (claim C8): `n + 1` buckets, each duplicate-free and
holding only valid keys. -/
def ValidSets (g : Grammar) (n : Nat) (sets : Sets) : Prop :=
  sets.length = n + 1 ∧
  ∀ s ∈ sets, s.Nodup ∧ ∀ k ∈ s, ValidKey g n k

/-- Bookkeeping contract of one chart-mutating step of the recognizer
(claim C8), relative to a valid chart: the bucket structure is preserved,
the invariant is maintained, the item count never decreases, and the
`changed` flag is newly set only together with a strict item-count
increase. -/
def StepOK (g : Grammar) (n : Nat) (acc acc' : Sets × Bool) : Prop :=
  ValidSets g n acc.1 →
    acc'.1.length = acc.1.length ∧ ValidSets g n acc'.1 ∧
    chartCount acc.1 ≤ chartCount acc'.1 ∧
    (acc.2 = true → acc'.2 = true) ∧
    (acc'.2 = true → acc.2 = true ∨ chartCount acc.1 < chartCount acc'.1)

/-- Whether a value is a resource of the reserved `__Propagate__` type
(claims C5/C6). -/
def isPropagate : Value → Bool
  | .resource t _ => t == "__Propagate__"
  | _ => false

/-- No nonterminal-bound child of this node evaluates to a `__Propagate__`
resource (hypothesis of the amended claim C6). -/
def noPropagateChild (fuel : Nat) (rhs : List Sym) (cs : List ParseTree) :
    Bool :=
  rhs.enum.all (fun isym =>
    match isym.2 with
    | .nonTerminal _ => !(isPropagate (compute_value fuel (cs.getD isym.1 default)))
    | _ => true)

/-- Whether a static-field spec is a placeholder reference (claims C5/C6). -/
def isIdentifierSpec : ValueSpec → Bool
  | .identifier _ => true
  | _ => false

/-! ## Concrete instances used by individual claims -/

/-- Claim C2's failing instance: `S → "a" {x:X}`, `X → ε` (in dokedef
surface syntax: `S : "a{x:X}"` and `X : ""`). -/
def c2Grammar : Grammar :=
  ⟨[⟨"S", [.terminal ['a'], .placeholder "x" "X"], .resource "S" []⟩,
    ⟨"X", [], .resource "X" []⟩]⟩

/-- Claim C3's failing instance: the rule `A : "x"` with omitted output. -/
def c3Rule : Rule := ⟨"A", .normal [.terminal ['x']], none⟩

/-- Claim C5's counterexample tree: a production with a direct `Int`
placeholder named `a` in its own rhs and output `Value(Identifier("a"))`,
with the matching `Int` token child. -/
def c5Tree : ParseTree :=
  .node ⟨"P", [.placeholder "a" "Int"], .value (.identifier "a")⟩
    [.token ⟨.int, ['4', '2'], ⟨0, 2⟩⟩]

/-- Claim C6's counterexample tree: a `Dict` node over one nonterminal
child whose value is a `__Propagate__` resource. -/
def c6Tree : ParseTree :=
  .node ⟨"D", [.nonTerminal "N"], .dict []⟩
    [.node ⟨"N", [], .resource "__Propagate__" [("a", .integerLiteral 1)]⟩ []]

/-- Claim C9's grammar (spec scenario S6): `Expr → {n:Int}` and
`Expr → Expr "+" Expr`. -/
def c9Grammar : Grammar :=
  ⟨[⟨"Expr", [.placeholder "n" "Int"], .resource "Expr" []⟩,
    ⟨"Expr", [.nonTerminal "Expr", .terminal ['+'], .nonTerminal "Expr"],
      .resource "Expr" []⟩]⟩

/-- The `ParseError` that C9's run (input `"42+"`) actually produces:
furthest in-progress chart index 2, end of input, no expected terminals
(the first set of `Expr` is empty — placeholders contribute none). -/
def c9Err : ParseErr :=
  ⟨2, none, [],
    ["Expr -> Expr+•Expr", "Expr -> •<n:Int>", "Expr -> •Expr+Expr"]⟩

/-! # Theorems -/

/-- C1: for every grammar, token list and start symbol, after running the
recognizer, `accepted start` is true iff the final chart set `sets[n]`
(`n` = token count) contains an item with `start = 0`, dot at the end of
its production's rhs, and the production's lhs equal to the start
symbol. -/
theorem C1_accepted_iff (g : Grammar) (tokens : List Token) (start : String) :
    accepted g tokens (recognize g tokens start) start = true ↔
      ∃ k ∈ (recognize g tokens start).getD tokens.length [],
        k.start = 0 ∧
        k.dot = (g.productions.getD k.prodId default).rhs.length ∧
        (g.productions.getD k.prodId default).lhs = start := by
  simp only [accepted, List.any_eq_true, Bool.and_eq_true, beq_iff_eq, and_assoc]

/-- C2: the claim is that whenever the chart accepts, the derivation
finder succeeds and never aborts.  The code violates it: for the grammar
`S → "a" {x:X}`, `X → ε` and input `"a"`, the chart accepts, but
`top_list`'s placeholder arm evaluates `is_builtin(typ, &tokens[1])` on a
one-token input — an out-of-bounds index — so `build_parse_tree` aborts
instead of returning a tree. -/
theorem C2_accepted_but_finder_panics :
    accepted c2Grammar (tokenize ['a'])
        (recognize c2Grammar (tokenize ['a']) "S") "S" = true ∧
      build_parse_tree c2Grammar (tokenize ['a'])
        (recognize c2Grammar (tokenize ['a']) "S") "S" 10 =
        .error .tokenIndexOOB :=
  ⟨by decide, rfl⟩

/-- C3: the claim is that a rule with omitted output behaves as
`Type(lhs)` (a typed resource).  The code violates it: `rules()` mutates
a discarded clone, so the omitted output stays `None` and
`From<Option<RuleRhs>>` turns it into an *empty untyped dictionary*;
parsing `"x"` with the engine built from `A : "x"` yields `Dictionary{}`,
whereas the spec's default `Type("A")` would have produced
`Resource{type:"A"}`. -/
theorem C3_omitted_output_becomes_dict :
    rulesApplyDefault [c3Rule] = [c3Rule] ∧
      from_dokedef_rules [c3Rule] =
        .ok ⟨[⟨"A", [.terminal ['x']], .dict []⟩]⟩ ∧
      parseInput ⟨[⟨"A", [.terminal ['x']], .dict []⟩]⟩ ['x'] "A" 10 =
        .ok (.ok (.dictionary [])) ∧
      applyDefaultSpec [c3Rule] = [⟨"A", .normal [.terminal ['x']], some (.type "A")⟩] ∧
      outSpecFromOpt (some (.type "A")) = .resource "A" [] :=
  ⟨rfl, rfl, rfl, rfl, rfl⟩

/-- C5 (counterexample): the claim says `Value(Identifier(name))` yields
the value of the direct child `C[i]` where `P.rhs[i]` is the placeholder
named `name`.  On a node whose own rhs has the placeholder `a` (bound to
the `Int` token `42`), the claim predicts `Integer 42`; the interpreter
actually searches only the children's *own* productions (one level
deeper) and yields `"<missing_placeholder>"`. -/
theorem C5_counterexample_direct_placeholder_ignored :
    compute_value 2 c5Tree = .string "<missing_placeholder>".data ∧
      compute_value 1 (.token ⟨.int, ['4', '2'], ⟨0, 2⟩⟩) = .integer 42 ∧
      Value.string "<missing_placeholder>".data ≠ .integer 42 :=
  ⟨rfl, rfl, by simp⟩

/-- C5 (amended): for a node with output `Value(Identifier(name))`, the
interpreter searches the children in order; the first value found behind
a placeholder named `name` in an interior-node child's *own* production
(paired with that child's children — i.e. a grandchild's value) is
yielded; if no interior-node child carries one, the result is
`"<missing_placeholder>"`.  Token children are never consulted, so a
placeholder in the node's own rhs (whose child is a token) contributes
nothing. -/
theorem C5_amended_identifier_searches_grandchildren (f : Nat) (l : String)
    (rhs : List Sym) (cs : List ParseTree) (name : String) :
    (∀ v, cs.findSome? (findPhWith (compute_value f) name) = some v →
      compute_value (f + 1) (.node ⟨l, rhs, .value (.identifier name)⟩ cs) = v) ∧
    (cs.findSome? (findPhWith (compute_value f) name) = none →
      compute_value (f + 1) (.node ⟨l, rhs, .value (.identifier name)⟩ cs) =
        .string "<missing_placeholder>".data) ∧
    (∀ tok, findPhWith (compute_value f) name (.token tok) = none) := by
  refine ⟨?_, ?_, fun _ => rfl⟩
  · intro v hv
    show (cs.findSome? (findPhWith (compute_value f) name)).getD _ = v
    rw [hv]
    rfl
  · intro hv
    show (cs.findSome? (findPhWith (compute_value f) name)).getD _ = _
    rw [hv]
    rfl

/-- C6 (counterexample): the claim says the `Dict` output follows the
`Resource` rules, in particular merging the fields of a `__Propagate__`
child.  On a `Dict` node whose nonterminal child `N` evaluates to
`Resource{__Propagate__, {a ↦ 1}}`, the claim predicts the dictionary
`{a ↦ 1}`; the interpreter actually nests the child unmerged under
`"N"`, and the dictionary has no key `"a"`. -/
theorem C6_counterexample_dict_does_not_merge_propagate :
    compute_value 3 c6Tree =
      .dictionary [("N", .resource "__Propagate__" [("a", .integer 1)])] ∧
      lookupKV [("N", Value.resource "__Propagate__" [("a", .integer 1)])] "a" =
        none :=
  ⟨rfl, rfl⟩

/-- When no nonterminal-bound child evaluates to a `__Propagate__`
resource, the `Dict` arm's rhs scan agrees with the `Resource` arm's. -/
theorem dictFields_eq_resourceFields (f : Nat) (rhs : List Sym)
    (cs : List ParseTree) (hnp : noPropagateChild f rhs cs = true) :
    dictFieldsWith (compute_value f) rhs cs =
      resourceFieldsWith (compute_value f) rhs cs := by
  unfold dictFieldsWith resourceFieldsWith
  apply List.foldl_ext
  intro m isym hmem
  have hx := (List.all_eq_true.mp hnp) isym hmem
  rcases isym with ⟨i, sym⟩
  cases sym with
  | terminal lit => rfl
  | placeholder n t => rfl
  | nonTerminal nt =>
    simp only [Bool.not_eq_true'] at hx
    cases hv : compute_value f (cs.getD i default) with
    | resource t fv =>
      rw [hv] at hx
      simp only [isPropagate, beq_eq_false_iff_ne, ne_eq] at hx
      simp [hv, hx]
    | integer _ => simp [hv]
    | float _ => simp [hv]
    | bool _ => simp [hv]
    | string _ => simp [hv]
    | dictionary _ => simp [hv]
    | childRef _ => simp [hv]
    | childrenRef _ => simp [hv]

/-- When no static field is an `Identifier`, the `Dict` and `Resource`
static-field resolutions agree. -/
theorem staticFold_dict_eq_resource (cv : ParseTree → Value) (rule : Prod)
    (cs : List ParseTree) (fields : List (String × ValueSpec))
    (base : List (String × Value))
    (hid : fields.all (fun kv => !isIdentifierSpec kv.2) = true) :
    fields.foldl (fun m kv => insertKV m kv.1 (staticValDict cv rule cs kv.2))
        base =
      fields.foldl
        (fun m kv => insertKV m kv.1 (staticValResource cv cs kv.2)) base := by
  apply List.foldl_ext
  intro m kv hmem
  have hx := (List.all_eq_true.mp hid) kv hmem
  cases h : kv.2 with
  | identifier n => rw [h] at hx; simp [isIdentifierSpec] at hx
  | integerLiteral i => rfl
  | floatLiteral x => rfl
  | stringLiteral s => rfl
  | boolLiteral b => rfl
  | child c => rfl
  | childrenOf c => rfl

/-- C6 (amended): `Dict(static_fields)` computes its field map like
`Resource` — placeholders bound by name, nonterminal children nested under
their name, terminals skipped, static fields overlaid last — and yields an
untyped `Dictionary`, *except* that a nonterminal child whose value is a
`__Propagate__` resource is nested unmerged like any other child (no
merge), and `Identifier` static fields resolve against the node's own
placeholders rather than the children's.  Hence, whenever no child value
is a `__Propagate__` resource and no static field is an `Identifier`, the
`Dict` output is exactly the `Resource` field map without the type
tag. -/
theorem C6_amended_dict_is_untagged_resource_without_merge (f : Nat)
    (l typ : String) (rhs : List Sym) (cs : List ParseTree)
    (fields : List (String × ValueSpec))
    (hnp : noPropagateChild f rhs cs = true)
    (hid : fields.all (fun kv => !isIdentifierSpec kv.2) = true) :
    ∃ m, compute_value (f + 1) (.node ⟨l, rhs, .dict fields⟩ cs) =
        .dictionary m ∧
      compute_value (f + 1) (.node ⟨l, rhs, .resource typ fields⟩ cs) =
        .resource typ m := by
  refine ⟨_, rfl, ?_⟩
  show Value.resource typ _ = Value.resource typ _
  rw [dictFields_eq_resourceFields f rhs cs hnp,
    staticFold_dict_eq_resource (compute_value f) ⟨l, rhs, .dict fields⟩ cs
      fields _ hid]

/-- Witness for `C6_amended_dict_is_untagged_resource_without_merge`:
a `Dict` node with a nonterminal child (a non-propagating resource), a
placeholder child, and one literal static field. -/
theorem C6_amended_witness :
    noPropagateChild 1 [.nonTerminal "N", .placeholder "p" "Int"]
        [.node ⟨"N", [], .resource "X" []⟩ [],
          .token ⟨.int, ['7'], ⟨0, 1⟩⟩] = true ∧
    List.all [("k", ValueSpec.integerLiteral 5)]
        (fun kv => !isIdentifierSpec kv.2) = true ∧
    ∃ m,
      compute_value 2
          (.node ⟨"D", [.nonTerminal "N", .placeholder "p" "Int"],
            .dict [("k", .integerLiteral 5)]⟩
            [.node ⟨"N", [], .resource "X" []⟩ [],
              .token ⟨.int, ['7'], ⟨0, 1⟩⟩]) = .dictionary m ∧
      compute_value 2
          (.node ⟨"D", [.nonTerminal "N", .placeholder "p" "Int"],
            .resource "T" [("k", .integerLiteral 5)]⟩
            [.node ⟨"N", [], .resource "X" []⟩ [],
              .token ⟨.int, ['7'], ⟨0, 1⟩⟩]) = .resource "T" m :=
  ⟨by decide, by decide,
    C6_amended_dict_is_untagged_resource_without_merge 1 "D" "T" _ _ _
      (by decide) (by decide)⟩

/-- The furthest-position scan returns the largest chart index whose set
holds an in-progress item. -/
theorem furthestPos_last (g : Grammar) (sets : Sets) :
    ∀ j, j < sets.length → hasInProgress g (sets.getD j []) = true →
      (∀ i, j < i → hasInProgress g (sets.getD i []) = false) →
      furthestPos g sets = j := by
  induction sets using List.reverseRecOn with
  | nil => intro j hlen _ _; simp at hlen
  | append_singleton l s ih =>
    intro j hlen hj hmax
    unfold furthestPos
    rw [List.enum_append, List.foldl_append]
    show List.foldl _ (l.enum.foldl _ 0) [(l.length, s)] = j
    by_cases hcase : j = l.length
    · subst hcase
      rw [List.getD_append_right l [s] [] l.length le_rfl, Nat.sub_self] at hj
      simp only [List.getD_cons_zero] at hj
      simp only [List.foldl_cons, List.foldl_nil, hj, if_true]
    · have hjl : j < l.length := by
        have := hlen
        simp only [List.length_append, List.length_singleton] at this
        omega
      have hs : hasInProgress g s = false := by
        have := hmax l.length hjl
        rwa [List.getD_append_right l [s] [] l.length le_rfl, Nat.sub_self]
          at this
      simp only [List.foldl_cons, List.foldl_nil, hs]
      show furthestPos g l = j
      apply ih j hjl
      · rwa [List.getD_append l [s] [] j hjl] at hj
      · intro i hi
        by_cases hil : i < l.length
        · have := hmax i hi
          rwa [List.getD_append l [s] [] i hil] at this
        · rw [List.getD_eq_default]
          · rfl
          · omega

/-- C9 (counterexample): for the S6 grammar and input `"42+"` the claim
says the reported position is 3; the reporter actually reports chart
index 2 (the boundary after the `+` token — there are only two tokens, so
chart indices run from 0 to 2). -/
theorem C9_counterexample_pos_is_two :
    try_accept c9Grammar (tokenize ['4', '2', '+'])
        (recognize c9Grammar (tokenize ['4', '2', '+']) "Expr") "Expr" =
      .error c9Err ∧ c9Err.pos ≠ 3 :=
  ⟨rfl, by decide⟩

/-- C9 (amended): in general a failed parse reports the furthest chart
index whose set contains an in-progress item (`dot < |rhs|`), with
`found` the token at that index when one exists and end-of-input
otherwise; for the S6 grammar `Expr → {n:Int} | Expr "+" Expr` and input
`"42+"` this is `pos = 2` (not 3), `found = None`, and the
expected-terminals list is the first-set expansion of the `Expr`
continuations, which is empty because placeholders contribute no
terminal expectation. -/
theorem C9_amended_furthest_in_progress_position :
    (∀ (g : Grammar) (tokens : List Token) (sets : Sets) (start : String)
      (j : Nat),
      accepted g tokens sets start = false →
      j < sets.length →
      hasInProgress g (sets.getD j []) = true →
      (∀ i, j < i → hasInProgress g (sets.getD i []) = false) →
      ∃ e, try_accept g tokens sets start = .error e ∧ e.pos = j ∧
        e.found = (tokens.get? j).map (fun t => t.text)) ∧
    try_accept c9Grammar (tokenize ['4', '2', '+'])
        (recognize c9Grammar (tokenize ['4', '2', '+']) "Expr") "Expr" =
      .error c9Err := by
  constructor
  · intro g tokens sets start j hacc hlen hj hmax
    have hfp : furthestPos g sets = j := furthestPos_last g sets j hlen hj hmax
    unfold try_accept
    rw [hacc]
    simp only [Bool.false_eq_true, if_false]
    refine ⟨_, rfl, hfp, ?_⟩
    show (tokens.get? (furthestPos g sets)).map (fun t => t.text) = _
    rw [hfp]
  · rfl

/-- UTF-8 length distributes over append. -/
theorem byteLen_append (a b : List Char) :
    byteLen (a ++ b) = byteLen a + byteLen b := by
  induction a with
  | nil => simp [byteLen]
  | cons c cs ih => simp [byteLen, ih, Nat.add_assoc]

/-- Token text concatenation distributes over append. -/
theorem concatTexts_append (a b : List Token) :
    concatTexts (a ++ b) = concatTexts a ++ concatTexts b := by
  induction a with
  | nil => simp [concatTexts]
  | cons t ts ih => simp [concatTexts, ih]

/-- Span chains compose. -/
theorem spansChain_append {p q r : Nat} {a b : List Token}
    (ha : spansChain p q a) (hb : spansChain q r b) :
    spansChain p r (a ++ b) := by
  induction a generalizing p with
  | nil =>
    have hpq : p = q := ha
    rw [List.nil_append, hpq]
    exact hb
  | cons t ts ih =>
    obtain ⟨h1, h2, h3⟩ := ha
    exact ⟨h1, h2, ih h3⟩

/-- The per-character fallback tokens concatenate to the run. -/
theorem concatTexts_charTokens (pos : Nat) (run : List Char) :
    concatTexts (charTokens pos run) = run := by
  induction run generalizing pos with
  | nil => rfl
  | cons c cs ih => simp [charTokens, concatTexts, ih]

/-- The per-character fallback tokens chain across the run's bytes. -/
theorem spansChain_charTokens (pos : Nat) (run : List Char) :
    spansChain pos (pos + byteLen run) (charTokens pos run) := by
  induction run generalizing pos with
  | nil => simp [charTokens, spansChain, byteLen]
  | cons c cs ih =>
    refine ⟨rfl, Nat.le_add_right _ _, ?_⟩
    have := ih (pos + utf8Len c)
    simpa [byteLen, Nat.add_assoc] using this

/-- The tokenizer loop on empty input. -/
theorem tokenizeF_nil (fuel pos : Nat) : tokenizeF fuel pos [] = [] := by
  cases fuel <;> rfl

/-- C4's induction: on quote-free input, with enough fuel, the emitted
tokens' texts concatenate to the input and their spans chain exactly
across its byte range. -/
theorem tokenizeF_partition (fuel : Nat) : ∀ (pos : Nat) (input : List Char),
    input.length ≤ fuel → '"' ∉ input →
    concatTexts (tokenizeF fuel pos input) = input ∧
    spansChain pos (pos + byteLen input) (tokenizeF fuel pos input) := by
  induction fuel with
  | zero =>
    intro pos input hlen _
    have hnil : input = [] := by
      cases input with
      | nil => rfl
      | cons c cs => simp at hlen
    subst hnil
    exact ⟨rfl, by simp [tokenizeF, spansChain, byteLen]⟩
  | succ f ih =>
    intro pos input hlen hq
    cases input with
    | nil => exact ⟨rfl, by simp [tokenizeF, spansChain, byteLen]⟩
    | cons c rest =>
      have hc : ¬(c = '"') := fun h => hq (h ▸ List.mem_cons_self c rest)
      have hqr : '"' ∉ rest := fun h => hq (List.mem_cons_of_mem c h)
      simp only [tokenizeF, if_neg hc]
      by_cases hd : c.isDigit
      · rw [if_pos hd]
        set run := (c :: rest).takeWhile isNumChar with hrundef
        obtain ⟨after, hafter⟩ :=
          (List.takeWhile_prefix isNumChar (l := c :: rest))
        rw [← hrundef] at hafter
        have hdrop : (c :: rest).drop run.length = after := by
          conv_lhs => rw [← hafter]
          rw [List.drop_left]
        have hnum : isNumChar c = true := by simp [isNumChar, hd]
        have hlenrun : 1 ≤ run.length := by
          rw [hrundef, List.takeWhile_cons_of_pos hnum]; simp
        have haq : '"' ∉ after := by
          intro hmem
          exact hq (hafter ▸ List.mem_append_right _ hmem)
        have halen : after.length ≤ f := by
          have h1 : run.length + after.length = rest.length + 1 := by
            have := congrArg List.length hafter
            simpa [List.length_append] using this
          simp only [List.length_cons] at hlen
          omega
        have hIH := ih (pos + byteLen run) after halen haq
        have hbl : byteLen (c :: rest) = byteLen run + byteLen after := by
          conv_lhs => rw [← hafter]
          rw [byteLen_append]
        rw [hdrop]
        by_cases h1 : parsesAsI64 run = true
        · rw [if_pos h1]
          constructor
          · show run ++ concatTexts (tokenizeF f (pos + byteLen run) after)
                = c :: rest
            rw [hIH.1, hafter]
          · refine ⟨rfl, Nat.le_add_right _ _, ?_⟩
            rw [hbl, ← Nat.add_assoc]
            exact hIH.2
        · rw [if_neg h1]
          by_cases h2 : runParsesAsF64 run = true
          · rw [if_pos h2]
            constructor
            · show run ++ concatTexts (tokenizeF f (pos + byteLen run) after)
                  = c :: rest
              rw [hIH.1, hafter]
            · refine ⟨rfl, Nat.le_add_right _ _, ?_⟩
              rw [hbl, ← Nat.add_assoc]
              exact hIH.2
          · rw [if_neg h2]
            constructor
            · rw [concatTexts_append, concatTexts_charTokens, hIH.1, hafter]
            · rw [hbl, ← Nat.add_assoc]
              exact spansChain_append (spansChain_charTokens _ _) hIH.2
      · rw [if_neg hd]
        have hIH := ih (pos + utf8Len c) rest
          (by simpa using Nat.le_of_succ_le_succ hlen) hqr
        constructor
        · show [c] ++ concatTexts (tokenizeF f (pos + utf8Len c) rest)
              = c :: rest
          rw [hIH.1]
          rfl
        · refine ⟨rfl, Nat.le_add_right _ _, ?_⟩
          show spansChain (pos + utf8Len c) (pos + byteLen (c :: rest)) _
          have hb : byteLen (c :: rest) = utf8Len c + byteLen rest := rfl
          rw [hb, ← Nat.add_assoc]
          exact hIH.2

/-- C4 (counterexample): the claim says token texts always concatenate to
the input; for the input `"a"` (a quoted string) the single `StringLit`
token's text is the inside only, so the concatenation drops both
quotes. -/
theorem C4_counterexample_stringlit_drops_quotes :
    concatTexts (tokenize ['"', 'a', '"']) = ['a'] ∧
      (['a'] : List Char) ≠ ['"', 'a', '"'] :=
  ⟨rfl, by decide⟩

/-- C4 (amended): for every input containing no double-quote character,
the token list returned by `tokenize` partitions the input exactly: the
concatenation of the tokens' texts equals the input, and the byte spans
are contiguous (each starts where the previous ended), non-overlapping,
and cover the whole byte range `[0, byteLen input)`. -/
theorem C4_amended_tokenize_partitions_quote_free (input : List Char)
    (h : '"' ∉ input) :
    concatTexts (tokenize input) = input ∧
    spansChain 0 (byteLen input) (tokenize input) := by
  have := tokenizeF_partition input.length 0 input le_rfl h
  simpa [tokenize] using this

/-- Witness for `C4_amended_tokenize_partitions_quote_free` at the input
`"a1"`. -/
theorem C4_amended_witness :
    ('"' ∉ ['a', '1']) ∧
      (concatTexts (tokenize ['a', '1']) = ['a', '1'] ∧
        spansChain 0 (byteLen ['a', '1']) (tokenize ['a', '1'])) :=
  ⟨by decide, C4_amended_tokenize_partitions_quote_free ['a', '1'] (by decide)⟩

/-- On a quote-free list, scanning for the next quote consumes
everything. -/
theorem takeWhile_ne_quote_of_not_mem (b : List Char) (h : '"' ∉ b) :
    b.takeWhile (fun ch => ch ≠ '"') = b := by
  induction b with
  | nil => rfl
  | cons c cs ih =>
    have hc : c ≠ '"' := fun hh => h (hh ▸ List.mem_cons_self c cs)
    rw [List.takeWhile_cons_of_pos (by simpa using hc)]
    rw [ih (fun hm => h (List.mem_cons_of_mem c hm))]

/-- Scanning for the next quote stops at the first appended quote. -/
theorem takeWhile_ne_quote_append (p t : List Char) (h : '"' ∉ p) :
    (p ++ '"' :: t).takeWhile (fun ch => ch ≠ '"') = p := by
  induction p with
  | nil => simp [List.takeWhile_cons_of_neg]
  | cons c cs ih =>
    have hc : c ≠ '"' := fun hh => h (hh ▸ List.mem_cons_self c cs)
    rw [List.cons_append, List.takeWhile_cons_of_pos (by simpa using hc),
      ih (fun hm => h (List.mem_cons_of_mem c hm))]

/-- A numeric run stops before any appended quote (a quote is not a
numeric character). -/
theorem takeWhile_num_append (u t : List Char) :
    (u ++ '"' :: t).takeWhile isNumChar = u.takeWhile isNumChar := by
  induction u with
  | nil => rw [List.nil_append, List.takeWhile_cons_of_neg] <;> simp [isNumChar]
  | cons c cs ih =>
    by_cases hc : isNumChar c
    · rw [List.cons_append, List.takeWhile_cons_of_pos hc,
        List.takeWhile_cons_of_pos hc, ih]
    · rw [List.cons_append, List.takeWhile_cons_of_neg (by simpa using hc),
        List.takeWhile_cons_of_neg (by simpa using hc)]

/-- Every list containing a quote splits at its first quote. -/
theorem exists_quote_split (l : List Char) (h : '"' ∈ l) :
    ∃ p q, l = p ++ '"' :: q ∧ '"' ∉ p := by
  induction l with
  | nil => cases h
  | cons c cs ih =>
    by_cases hc : c = '"'
    · exact ⟨[], cs, by rw [hc]; rfl, by simp⟩
    · have hm : '"' ∈ cs := by
        cases List.mem_cons.mp h with
        | inl hh => exact absurd hh.symm hc
        | inr hh => exact hh
      obtain ⟨p, q, hl, hp⟩ := ih hm
      exact ⟨c :: p, q, by rw [hl]; rfl, by
        intro hmem
        cases List.mem_cons.mp hmem with
        | inl hh => exact hc hh.symm
        | inr hh => exact hp hh⟩

/-- C10's induction: with enough fuel, tokenizing `a ++ '"' :: b` where
the shown quote opens a string (even number of quotes before it) that is
never closed (no quote in `b`) ends with a `StringLit` token whose text
is all of `b` and whose span runs from the opening quote to one byte past
the end of the input. -/
theorem tokenizeF_unterminated (fuel : Nat) : ∀ (pos : Nat) (a b : List Char),
    (a ++ '"' :: b).length ≤ fuel → a.count '"' % 2 = 0 → '"' ∉ b →
    (tokenizeF fuel pos (a ++ '"' :: b)).getLast? =
      some ⟨.stringLit, b,
        ⟨pos + byteLen a, pos + byteLen a + 1 + byteLen b + 1⟩⟩ := by
  induction fuel with
  | zero =>
    intro pos a b hlen _ _
    exfalso
    have : 0 < (a ++ '"' :: b).length := by simp
    omega
  | succ f ih =>
    intro pos a b hlen heven hb
    cases a with
    | nil =>
      rw [List.nil_append]
      show (tokenizeF (f + 1) pos ('"' :: b)).getLast? = _
      simp only [tokenizeF, if_pos rfl]
      rw [takeWhile_ne_quote_of_not_mem b hb, List.drop_length]
      show (Token.mk .stringLit b ⟨pos, pos + 1 + byteLen b + 1⟩ ::
        tokenizeF f (pos + 1 + byteLen b + 1) []).getLast? = _
      rw [tokenizeF_nil]
      show some (Token.mk .stringLit b ⟨pos, pos + 1 + byteLen b + 1⟩) = _
      have h1 : pos + byteLen ([] : List Char) = pos := rfl
      rw [h1]
    | cons c a' =>
      have hlen' : a'.length + 1 + (1 + b.length) ≤ f + 1 := by
        have := hlen
        simp [List.length_append] at this
        omega
      by_cases hc : c = '"'
      · subst hc
        have hcount : a'.count '"' % 2 = 1 := by
          rw [List.count_cons] at heven
          simp at heven
          omega
        have hmem : '"' ∈ a' := by
          rw [← List.count_pos_iff]
          omega
        obtain ⟨p, q, hsplit, hp⟩ := exists_quote_split a' hmem
        have hcq : q.count '"' % 2 = 0 := by
          rw [hsplit, List.count_append, List.count_cons] at hcount
          have hzp : p.count '"' = 0 := List.count_eq_zero.mpr hp
          simp [hzp] at hcount
          omega
        have hrw : a' ++ '"' :: b = p ++ '"' :: (q ++ '"' :: b) := by
          rw [hsplit, List.append_assoc]
          rfl
        show (tokenizeF (f + 1) pos ('"' :: (a' ++ '"' :: b))).getLast? = _
        simp only [tokenizeF, if_pos rfl]
        rw [hrw, takeWhile_ne_quote_append p (q ++ '"' :: b) hp,
          List.drop_left]
        show (Token.mk .stringLit p ⟨pos, pos + 1 + byteLen p + 1⟩ ::
          tokenizeF f (pos + 1 + byteLen p + 1) (q ++ '"' :: b)).getLast? = _
        have hflen : (q ++ '"' :: b).length ≤ f := by
          have h2 := congrArg List.length hsplit
          simp [List.length_append] at h2 ⊢
          omega
        have hIH := ih (pos + 1 + byteLen p + 1) q b hflen hcq hb
        show ([Token.mk .stringLit p ⟨pos, pos + 1 + byteLen p + 1⟩] ++
          tokenizeF f (pos + 1 + byteLen p + 1) (q ++ '"' :: b)).getLast? = _
        rw [List.getLast?_append, hIH]
        show some _ = some _
        have hbq : byteLen ('"' :: a') = 1 + (byteLen p + (1 + byteLen q)) := by
          show utf8Len '"' + byteLen a' = _
          rw [hsplit, byteLen_append]
          rfl
        have hAB : pos + 1 + byteLen p + 1 + byteLen q
            = pos + byteLen ('"' :: a') := by omega
        rw [hAB]
      · have hcnt : a'.count '"' % 2 = 0 := by
          rw [List.count_cons] at heven
          simp [hc] at heven
          exact heven
        show (tokenizeF (f + 1) pos (c :: (a' ++ '"' :: b))).getLast? = _
        simp only [tokenizeF, if_neg hc]
        by_cases hd : c.isDigit
        · rw [if_pos hd]
          set run := (c :: (a' ++ '"' :: b)).takeWhile isNumChar with hrundef
          have hruneq : run = (c :: a').takeWhile isNumChar := by
            rw [hrundef]
            exact takeWhile_num_append (c :: a') b
          obtain ⟨u', hu'⟩ := (List.takeWhile_prefix isNumChar (l := c :: a'))
          rw [← hruneq] at hu'
          have hdropq : (c :: (a' ++ '"' :: b)).drop run.length
              = u' ++ '"' :: b := by
            have hfull : c :: (a' ++ '"' :: b) = run ++ (u' ++ '"' :: b) := by
              rw [← List.append_assoc, hu']
              rfl
            rw [hfull, List.drop_left]
          have hnq : '"' ∉ run := by
            intro hmm
            have := List.mem_takeWhile_imp (hruneq ▸ hmm)
            simp [isNumChar] at this
          have hcu' : u'.count '"' % 2 = 0 := by
            have h2 : (c :: a').count '"' = run.count '"' + u'.count '"' := by
              rw [← hu', List.count_append]
            have hzr : run.count '"' = 0 := List.count_eq_zero.mpr hnq
            rw [List.count_cons] at h2
            simp [hc, hzr] at h2
            omega
          have hrun1 : 1 ≤ run.length := by
            rw [hruneq, List.takeWhile_cons_of_pos (by simp [isNumChar, hd])]
            simp
          have hflen : (u' ++ '"' :: b).length ≤ f := by
            have h2 := congrArg List.length hu'
            simp [List.length_append] at h2 ⊢
            omega
          have hIH := ih (pos + byteLen run) u' b hflen hcu' hb
          have hblu : byteLen (c :: a') = byteLen run + byteLen u' := by
            rw [← hu', byteLen_append]
          have hAB : pos + byteLen run + byteLen u'
              = pos + byteLen (c :: a') := by omega
          rw [hdropq]
          by_cases h1 : parsesAsI64 run = true
          · rw [if_pos h1]
            show ([Token.mk .int run ⟨pos, pos + byteLen run⟩] ++
              tokenizeF f (pos + byteLen run) (u' ++ '"' :: b)).getLast? = _
            rw [List.getLast?_append, hIH]
            show some _ = some _
            rw [hAB]
          · rw [if_neg h1]
            by_cases h2 : runParsesAsF64 run = true
            · rw [if_pos h2]
              show ([Token.mk .float run ⟨pos, pos + byteLen run⟩] ++
                tokenizeF f (pos + byteLen run) (u' ++ '"' :: b)).getLast? = _
              rw [List.getLast?_append, hIH]
              show some _ = some _
              rw [hAB]
            · rw [if_neg h2]
              rw [List.getLast?_append, hIH]
              show some _ = some _
              rw [hAB]
        · rw [if_neg hd]
          have hflen : (a' ++ '"' :: b).length ≤ f := by
            simp [List.length_append]
            omega
          have hIH := ih (pos + utf8Len c) a' b hflen hcnt hb
          show ([Token.mk .char [c] ⟨pos, pos + utf8Len c⟩] ++
            tokenizeF f (pos + utf8Len c) (a' ++ '"' :: b)).getLast? = _
          rw [List.getLast?_append, hIH]
          show some _ = some _
          have hbc : byteLen (c :: a') = utf8Len c + byteLen a' := rfl
          have hAB : pos + utf8Len c + byteLen a'
              = pos + byteLen (c :: a') := by omega
          rw [hAB]

/-- C10: for every input with an opening double quote that is never
closed (`a` holds an even number of quotes, so the shown quote opens a
string; `b` holds none, so it never closes), `tokenize` still terminates
(it is a total function of its fuel, which each branch strictly
decreases) and emits as its *last* token a `StringLit` whose text is the
entire remaining text `b` after the opening quote, with span start at the
opening quote but span end `byteLen input + 1` — one byte past the end of
the input, the one place the span invariant breaks. -/
theorem C10_unterminated_string_last_token (a b : List Char)
    (hopen : a.count '"' % 2 = 0) (hnoclose : '"' ∉ b) :
    (tokenize (a ++ '"' :: b)).getLast? =
      some ⟨.stringLit, b, ⟨byteLen a, byteLen (a ++ '"' :: b) + 1⟩⟩ := by
  have h := tokenizeF_unterminated (a ++ '"' :: b).length 0 a b le_rfl
    hopen hnoclose
  rw [tokenize, h]
  have hb1 : byteLen (a ++ '"' :: b) = byteLen a + (1 + byteLen b) := by
    rw [byteLen_append]
    rfl
  have h0 : 0 + byteLen a = byteLen a := by omega
  rw [h0]
  have h2 : byteLen a + 1 + byteLen b + 1 = byteLen (a ++ '"' :: b) + 1 := by
    omega
  rw [h2]

/-- Witness for `C10_unterminated_string_last_token` at the input `"a`
(opening quote, then a single unquoted character). -/
theorem C10_witness :
    (List.count '"' [] % 2 = 0) ∧ ('"' ∉ ['a']) ∧
      (tokenize ([] ++ '"' :: ['a'])).getLast? =
        some ⟨.stringLit, ['a'], ⟨byteLen [], byteLen ([] ++ '"' :: ['a']) + 1⟩⟩ :=
  ⟨by decide, by decide,
    C10_unterminated_string_last_token [] ['a'] (by decide) (by decide)⟩

/-- Folding item-count accumulation shifts out of the accumulator. -/
theorem chartCount_foldl (l : Sets) (acc : Nat) :
    l.foldl (fun a s => a + s.length) acc = acc + chartCount l := by
  induction l generalizing acc with
  | nil => simp [chartCount]
  | cons s rest ih =>
    show List.foldl _ (acc + s.length) rest = _
    rw [ih]
    show acc + s.length + chartCount rest = acc + chartCount (s :: rest)
    have h : chartCount (s :: rest) = s.length + chartCount rest := by
      show List.foldl _ (0 + s.length) rest = _
      rw [ih]
      omega
    omega

/-- Item count of a cons. -/
theorem chartCount_cons (s : List ItemKey) (rest : Sets) :
    chartCount (s :: rest) = s.length + chartCount rest := by
  show List.foldl _ (0 + s.length) rest = _
  rw [chartCount_foldl]
  omega

/-- Overwriting one bucket trades its length for the new one's. -/
theorem chartCount_set (sets : Sets) (pos : Nat) (l' : List ItemKey)
    (h : pos < sets.length) :
    chartCount (sets.set pos l') + (sets.getD pos []).length
      = chartCount sets + l'.length := by
  induction sets generalizing pos with
  | nil => simp at h
  | cons s rest ih =>
    cases pos with
    | zero =>
      show chartCount (l' :: rest) + s.length = chartCount (s :: rest) + _
      rw [chartCount_cons, chartCount_cons]
      omega
    | succ p =>
      show chartCount (s :: rest.set p l') + (rest.getD p []).length = _
      rw [chartCount_cons, chartCount_cons]
      have := ih p (by simpa using Nat.lt_of_succ_lt_succ h)
      omega

/-- `add_item` written as a single conditional. -/
theorem add_item_eq (sets : Sets) (pos : Nat) (k : ItemKey) :
    add_item sets pos k =
      if k ∈ sets.getD pos [] then (sets, false)
      else (sets.set pos (sets.getD pos [] ++ [k]), true) := rfl

/-- `add_item` never changes the number of buckets. -/
theorem add_item_length (sets : Sets) (pos : Nat) (k : ItemKey) :
    (add_item sets pos k).1.length = sets.length := by
  rw [add_item_eq]
  by_cases hmem : k ∈ sets.getD pos []
  · rw [if_pos hmem]
  · rw [if_neg hmem]
    exact List.length_set sets pos _

/-- An unsuccessful `add_item` leaves the chart untouched. -/
theorem add_item_false {sets : Sets} {pos : Nat} {k : ItemKey}
    (h : (add_item sets pos k).2 = false) : (add_item sets pos k).1 = sets := by
  rw [add_item_eq] at h ⊢
  by_cases hmem : k ∈ sets.getD pos []
  · rw [if_pos hmem]
  · rw [if_neg hmem] at h
    simp at h

/-- A successful `add_item` at a real bucket adds exactly one item. -/
theorem add_item_count_true {sets : Sets} {pos : Nat} {k : ItemKey}
    (h : (add_item sets pos k).2 = true) (hp : pos < sets.length) :
    chartCount (add_item sets pos k).1 = chartCount sets + 1 := by
  rw [add_item_eq] at h ⊢
  by_cases hmem : k ∈ sets.getD pos []
  · rw [if_pos hmem] at h
    simp at h
  · rw [if_neg hmem]
    have := chartCount_set sets pos (sets.getD pos [] ++ [k]) hp
    simp only [List.length_append, List.length_singleton] at this
    show chartCount (sets.set pos _) = chartCount sets + 1
    omega

/-- `add_item` never removes items. -/
theorem add_item_count_ge (sets : Sets) (pos : Nat) (k : ItemKey) :
    chartCount sets ≤ chartCount (add_item sets pos k).1 := by
  by_cases h : (add_item sets pos k).2 = true
  · by_cases hp : pos < sets.length
    · rw [add_item_count_true h hp]
      omega
    · rw [add_item_eq]
      by_cases hmem : k ∈ sets.getD pos []
      · rw [if_pos hmem]
      · rw [if_neg hmem]
        show chartCount sets ≤ chartCount (sets.set pos _)
        rw [List.set_eq_of_length_le (by omega)]
  · rw [add_item_false (by simpa using h)]

/-- `add_item` with a valid key preserves the chart invariant. -/
theorem add_item_valid {g : Grammar} {n : Nat} {sets : Sets} {pos : Nat}
    {k : ItemKey} (hv : ValidSets g n sets) (hk : ValidKey g n k) :
    ValidSets g n (add_item sets pos k).1 := by
  rw [add_item_eq]
  by_cases hmem : k ∈ sets.getD pos []
  · rw [if_pos hmem]
    exact hv
  · rw [if_neg hmem]
    refine ⟨by rw [List.length_set]; exact hv.1, ?_⟩
    intro s hs
    rcases List.mem_or_eq_of_mem_set hs with hin | heq
    · exact hv.2 s hin
    · subst heq
      by_cases hp : pos < sets.length
      · have hbmem : sets.getD pos [] ∈ sets := by
          rw [List.getD_eq_getElem sets [] hp]
          exact List.getElem_mem hp
        obtain ⟨hnd, hval⟩ := hv.2 _ hbmem
        constructor
        · rw [List.nodup_append]
          exact ⟨hnd, List.nodup_singleton k, by
            intro a ha hb
            rw [List.mem_singleton] at hb
            exact hmem (hb ▸ ha)⟩
        · intro k' hk'
          rcases List.mem_append.mp hk' with h1 | h1
          · exact hval k' h1
          · rw [List.mem_singleton] at h1
            exact h1 ▸ hk
      · rw [List.getD_eq_default sets [] (by omega)]
        constructor
        · simp
        · intro k' hk'
          simp at hk'
          exact hk' ▸ hk

/-- Every production's rhs length is bounded by `maxRhsLen`. -/
theorem rhs_le_maxRhsLen (g : Grammar) (p : Prod) (hp : p ∈ g.productions) :
    p.rhs.length ≤ maxRhsLen g := by
  unfold maxRhsLen
  have hgen : ∀ (l : List Prod) (a : Nat), p ∈ l →
      p.rhs.length ≤ l.foldl (fun m q => max m q.rhs.length) a := by
    intro l
    induction l with
    | nil => intro a h; cases h
    | cons q rest ih =>
      intro a h
      rcases List.mem_cons.mp h with h1 | h1
      · subst h1
        have hstep : p.rhs.length ≤ max a p.rhs.length := le_max_right _ _
        calc p.rhs.length ≤ max a p.rhs.length := hstep
          _ ≤ rest.foldl (fun m q => max m q.rhs.length) (max a p.rhs.length) := by
              clear ih hstep h
              induction rest generalizing a with
              | nil => exact le_rfl
              | cons r rs ihr =>
                show _ ≤ List.foldl _ (max (max a p.rhs.length) r.rhs.length) rs
                calc max a p.rhs.length
                    ≤ max (max a p.rhs.length) r.rhs.length := le_max_left _ _
                  _ ≤ _ := by
                      have := ihr (a := max a r.rhs.length)
                      -- rearrange: max (max a p) r = max (max a r) p
                      rw [show max (max a p.rhs.length) r.rhs.length
                          = max (max a r.rhs.length) p.rhs.length by
                        omega]
                      exact ihr _
      · exact ih _ h1
  exact hgen g.productions 0 hp

/-- A duplicate-free bucket of valid keys has at most `keyBound` items. -/
theorem bucket_length_le (g : Grammar) (n : Nat) (s : List ItemKey)
    (hnd : s.Nodup) (hval : ∀ k ∈ s, ValidKey g n k) :
    s.length ≤ keyBound g n := by
  classical
  have hinj : Function.Injective
      (fun k : ItemKey => (k.prodId, k.dot, k.start)) := by
    intro a b h
    cases a
    cases b
    simpa using h
  have hnd2 := hnd.map hinj
  have hsub : (s.map (fun k => (k.prodId, k.dot, k.start))).toFinset ⊆
      Finset.range g.productions.length ×ˢ
        (Finset.range (maxRhsLen g + 1) ×ˢ Finset.range (n + 1)) := by
    intro x hx
    rw [List.mem_toFinset, List.mem_map] at hx
    obtain ⟨k, hk, hkeq⟩ := hx
    obtain ⟨h1, h2, h3⟩ := hval k hk
    subst hkeq
    have hdmax : k.dot ≤ maxRhsLen g := by
      have hmem : g.productions.getD k.prodId default ∈ g.productions := by
        rw [List.getD_eq_getElem _ _ h1]
        exact List.getElem_mem h1
      exact le_trans h2 (rhs_le_maxRhsLen g _ hmem)
    simp only [Finset.mem_product, Finset.mem_range]
    exact ⟨h1, by omega, by omega⟩
  calc s.length = (s.map (fun k => (k.prodId, k.dot, k.start))).length :=
        (List.length_map _ _).symm
    _ = (s.map (fun k => (k.prodId, k.dot, k.start))).toFinset.card :=
        (List.toFinset_card_of_nodup hnd2).symm
    _ ≤ (Finset.range g.productions.length ×ˢ
          (Finset.range (maxRhsLen g + 1) ×ˢ Finset.range (n + 1))).card :=
        Finset.card_le_card hsub
    _ = keyBound g n := by
        simp [Finset.card_product, Finset.card_range, keyBound, Nat.mul_assoc]

/-- The whole chart holds at most `keyBound * (n + 1)` items. -/
theorem chartCount_le (g : Grammar) (n : Nat) (sets : Sets)
    (hv : ValidSets g n sets) : chartCount sets ≤ keyBound g n * (n + 1) := by
  have hgen : ∀ (l : Sets), (∀ s ∈ l, s.length ≤ keyBound g n) →
      chartCount l ≤ keyBound g n * l.length := by
    intro l
    induction l with
    | nil => intro _; simp [chartCount]
    | cons s rest ih =>
      intro h
      rw [chartCount_cons]
      have h1 := h s (List.mem_cons_self s rest)
      have h2 := ih (fun x hx => h x (List.mem_cons_of_mem s hx))
      simp only [List.length_cons]
      calc s.length + chartCount rest
          ≤ keyBound g n + keyBound g n * rest.length := by omega
        _ = keyBound g n * (rest.length + 1) := by ring
  have := hgen sets (fun s hs =>
    bucket_length_le g n s (hv.2 s hs).1 (hv.2 s hs).2)
  rw [hv.1] at this
  exact this

/-- `StepOK` is reflexive. -/
theorem StepOK.refl (g : Grammar) (n : Nat) (acc : Sets × Bool) :
    StepOK g n acc acc :=
  fun hv => ⟨rfl, hv, le_rfl, fun h => h, fun h => Or.inl h⟩

/-- `StepOK` composes. -/
theorem StepOK.trans {g : Grammar} {n : Nat} {a b c : Sets × Bool}
    (hab : StepOK g n a b) (hbc : StepOK g n b c) : StepOK g n a c := by
  intro hv
  obtain ⟨l1, v1, c1, f1, s1⟩ := hab hv
  obtain ⟨l2, v2, c2, f2, s2⟩ := hbc v1
  refine ⟨l2.trans l1, v2, c1.trans c2, fun h => f2 (f1 h), ?_⟩
  intro h
  rcases s2 h with h2 | h2
  · rcases s1 h2 with h3 | h3
    · exact Or.inl h3
    · exact Or.inr (lt_of_lt_of_le h3 c2)
  · exact Or.inr (lt_of_le_of_lt c1 h2)

/-- A fold of `StepOK` steps is `StepOK`. -/
theorem StepOK.foldl {g : Grammar} {n : Nat} {α : Type}
    (step : Sets × Bool → α → Sets × Bool) (l : List α)
    (h : ∀ acc x, x ∈ l → StepOK g n acc (step acc x)) :
    ∀ acc, StepOK g n acc (l.foldl step acc) := by
  induction l with
  | nil => intro acc; exact StepOK.refl g n acc
  | cons x xs ih =>
    intro acc
    exact StepOK.trans (h acc x (List.mem_cons_self x xs))
      (ih (fun a y hy => h a y (List.mem_cons_of_mem x hy)) (step acc x))

/-- Nullable advancement: keeps the bucket count, the invariant and never
removes items.  The advanced keys stay valid because the guard checks the
dot against the production's rhs. -/
theorem addNullableAux_spec (g : Grammar) (ns : List String) (n pos : Nat) :
    ∀ (fuel : Nat) (k : ItemKey) (sets : Sets),
    (addNullableAux g ns pos fuel k sets).length = sets.length ∧
    chartCount sets ≤ chartCount (addNullableAux g ns pos fuel k sets) ∧
    (ValidSets g n sets → ValidKey g n k →
      ValidSets g n (addNullableAux g ns pos fuel k sets)) := by
  intro fuel
  induction fuel with
  | zero => intro k sets; exact ⟨rfl, le_rfl, fun hv _ => hv⟩
  | succ f ih =>
    intro k sets
    have heq : addNullableAux g ns pos (f + 1) k sets =
        if k.dot < (g.productions.getD k.prodId default).rhs.length ∧
            symNullable ns
              ((g.productions.getD k.prodId default).rhs.getD k.dot
                (.terminal [])) = true then
          (if (add_item sets pos ⟨k.prodId, k.dot + 1, k.start⟩).2 = true then
            addNullableAux g ns pos f ⟨k.prodId, k.dot + 1, k.start⟩
              (add_item sets pos ⟨k.prodId, k.dot + 1, k.start⟩).1
          else (add_item sets pos ⟨k.prodId, k.dot + 1, k.start⟩).1)
        else sets := rfl
    rw [heq]
    by_cases hg : k.dot < (g.productions.getD k.prodId default).rhs.length ∧
        symNullable ns
          ((g.productions.getD k.prodId default).rhs.getD k.dot
            (.terminal [])) = true
    · rw [if_pos hg]
      have hkey : ValidKey g n k →
          ValidKey g n ⟨k.prodId, k.dot + 1, k.start⟩ := by
        intro hv
        exact ⟨hv.1, Nat.succ_le_of_lt hg.1, hv.2.2⟩
      by_cases hadd :
          (add_item sets pos ⟨k.prodId, k.dot + 1, k.start⟩).2 = true
      · rw [if_pos hadd]
        obtain ⟨ihl, ihc, ihv⟩ := ih ⟨k.prodId, k.dot + 1, k.start⟩
          (add_item sets pos ⟨k.prodId, k.dot + 1, k.start⟩).1
        refine ⟨ihl.trans (add_item_length sets pos _), ?_, ?_⟩
        · exact le_trans (add_item_count_ge sets pos _) ihc
        · intro hv hk
          exact ihv (add_item_valid hv (hkey hk)) (hkey hk)
      · rw [if_neg hadd]
        exact ⟨add_item_length sets pos _, add_item_count_ge sets pos _,
          fun hv hk => add_item_valid hv (hkey hk)⟩
    · rw [if_neg hg]
      exact ⟨rfl, le_rfl, fun hv _ => hv⟩

/-- See `addNullableAux_spec`. -/
theorem add_nullable_items_spec (g : Grammar) (ns : List String) (n pos : Nat)
    (k : ItemKey) (sets : Sets) :
    (add_nullable_items g ns k pos sets).length = sets.length ∧
    chartCount sets ≤ chartCount (add_nullable_items g ns k pos sets) ∧
    (ValidSets g n sets → ValidKey g n k →
      ValidSets g n (add_nullable_items g ns k pos sets)) :=
  addNullableAux_spec g ns n pos (maxRhsLen g + 1) k sets

/-- Indices in `enumFrom` are below the starting index plus the length. -/
theorem enumFrom_fst_lt {α : Type} :
    ∀ (l : List α) (s : Nat) (x : Nat × α), x ∈ List.enumFrom s l →
      x.1 < s + l.length := by
  intro l
  induction l with
  | nil => intro s x h; cases h
  | cons a l ih =>
    intro s x h
    rcases List.mem_cons.mp h with h1 | h1
    · subst h1; simp
    · have := ih (s + 1) x h1
      simp only [List.length_cons]
      omega

/-- Every id returned by `prods_for` is a real production id. -/
theorem prods_for_fst_lt (g : Grammar) (name : String) (pr : Nat × Prod)
    (h : pr ∈ prods_for g name) : pr.1 < g.productions.length := by
  unfold prods_for at h
  have h1 := (List.mem_filter.mp h).1
  have h2 := enumFrom_fst_lt g.productions 0 pr h1
  omega

/-- The predictor is a well-behaved chart step. -/
theorem predictInto_spec (g : Grammar) (ns : List String) (n pos : Nat)
    (name : String) (acc : Sets × Bool) (hpos : pos ≤ n) :
    StepOK g n acc (predictInto g ns pos name acc) := by
  unfold predictInto
  apply StepOK.foldl
  intro a pr hmem
  intro hv
  have hpid := prods_for_fst_lt g name pr hmem
  set k : ItemKey := ⟨pr.1, 0, pos⟩ with hkdef
  have hk : ValidKey g n k := ⟨hpid, Nat.zero_le _, hpos⟩
  show ((if (add_item a.1 pos k).2 then _ else _) : Sets × Bool).1.length = _ ∧ _
  by_cases hadd : (add_item a.1 pos k).2 = true
  · rw [if_pos hadd]
    obtain ⟨hl, hc, hvp⟩ :=
      add_nullable_items_spec g ns n pos k (add_item a.1 pos k).1
    refine ⟨hl.trans (add_item_length a.1 pos k),
      hvp (add_item_valid hv hk) hk, ?_, fun _ => rfl, ?_⟩
    · have h1 : chartCount a.1 ≤ chartCount (add_item a.1 pos k).1 :=
        add_item_count_ge a.1 pos k
      exact h1.trans hc
    · intro _
      right
      have h1 : chartCount (add_item a.1 pos k).1 = chartCount a.1 + 1 :=
        add_item_count_true hadd (by rw [hv.1]; omega)
      show chartCount a.1 <
        chartCount (add_nullable_items g ns k pos (add_item a.1 pos k).1)
      omega
  · rw [if_neg hadd]
    rw [add_item_false (by simpa using hadd)]
    exact ⟨rfl, hv, le_rfl, fun h => h, fun h => Or.inl h⟩

/-- The completer is a well-behaved chart step. -/
theorem completeStep_spec (g : Grammar) (n pos : Nat) (k : ItemKey)
    (acc : Sets × Bool) (hpos : pos ≤ n) :
    StepOK g n acc (completeStep g pos k acc) := by
  by_cases hventry : ValidSets g n acc.1
  case neg => exact fun hv => absurd hv hventry
  unfold completeStep
  apply StepOK.foldl
  intro a wk hwk
  obtain ⟨hmem, hfil⟩ := List.mem_filter.mp hwk
  have hwkv : ValidKey g n wk := by
    by_cases hks : k.start < acc.1.length
    · have hbmem : acc.1.getD k.start [] ∈ acc.1 := by
        rw [List.getD_eq_getElem _ _ hks]
        exact List.getElem_mem hks
      exact (hventry.2 _ hbmem).2 wk hmem
    · rw [List.getD_eq_default _ _ (by omega)] at hmem
      cases hmem
  have hdot : wk.dot <
      (g.productions.getD wk.prodId default).rhs.length := by
    by_contra hcon
    rw [if_neg hcon] at hfil
    cases hfil
  have hwkey : ValidKey g n ⟨wk.prodId, wk.dot + 1, wk.start⟩ :=
    ⟨hwkv.1, Nat.succ_le_of_lt hdot, hwkv.2.2⟩
  intro hva
  by_cases hadd : (add_item a.1 pos ⟨wk.prodId, wk.dot + 1, wk.start⟩).2 = true
  · refine ⟨add_item_length _ _ _, add_item_valid hva hwkey,
      add_item_count_ge _ _ _, ?_, ?_⟩
    · intro h
      show (a.2 || _) = true
      rw [h, Bool.true_or]
    · intro _
      right
      have h1 := add_item_count_true hadd (by rw [hva.1]; omega)
      show chartCount a.1 <
        chartCount (add_item a.1 pos ⟨wk.prodId, wk.dot + 1, wk.start⟩).1
      omega
  · have hfa := add_item_false (by simpa using hadd)
    refine ⟨by rw [hfa], by rw [hfa]; exact hva, by rw [hfa], ?_, ?_⟩
    · intro h
      show (a.2 || _) = true
      rw [h, Bool.true_or]
    · intro h
      left
      have h2 : (a.2 ||
          (add_item a.1 pos ⟨wk.prodId, wk.dot + 1, wk.start⟩).2) = true := h
      rcases Bool.or_eq_true_iff.mp h2 with h3 | h3
      · exact h3
      · exact absurd h3 hadd

/-- A scan-style insertion (`add_item` plus `changed ||= added`) is a
well-behaved chart step. -/
theorem scanStep_ok (g : Grammar) (n : Nat) (acc : Sets × Bool)
    (pos' : Nat) (k' : ItemKey) (hk' : ValidKey g n k') (hp : pos' ≤ n) :
    StepOK g n acc
      ((add_item acc.1 pos' k').1, acc.2 || (add_item acc.1 pos' k').2) := by
  intro hv
  by_cases hadd : (add_item acc.1 pos' k').2 = true
  · refine ⟨add_item_length _ _ _, add_item_valid hv hk',
      add_item_count_ge _ _ _, ?_, ?_⟩
    · intro h
      show (acc.2 || _) = true
      rw [h, Bool.true_or]
    · intro _
      right
      have h1 := add_item_count_true hadd (by rw [hv.1]; omega)
      show chartCount acc.1 < chartCount (add_item acc.1 pos' k').1
      omega
  · have hfa := add_item_false (by simpa using hadd)
    refine ⟨by rw [hfa], by rw [hfa]; exact hv, by rw [hfa], ?_, ?_⟩
    · intro h
      show (acc.2 || _) = true
      rw [h, Bool.true_or]
    · intro h
      left
      rcases Bool.or_eq_true_iff.mp h with h3 | h3
      · exact h3
      · exact absurd h3 hadd

/-- Processing one snapshot item is a well-behaved chart step. -/
theorem processItem_spec (g : Grammar) (ns : List String)
    (tokens : List Token) (n pos : Nat) (acc : Sets × Bool) (k : ItemKey)
    (hk : ValidKey g n k) (hpos : pos ≤ n) (htok : tokens.length = n) :
    StepOK g n acc (processItem g ns tokens pos acc k) := by
  unfold processItem
  by_cases hdot : k.dot < (g.productions.getD k.prodId default).rhs.length
  · rw [if_pos hdot]
    have hknew : ValidKey g n ⟨k.prodId, k.dot + 1, k.start⟩ :=
      ⟨hk.1, Nat.succ_le_of_lt hdot, hk.2.2⟩
    cases hsym : (g.productions.getD k.prodId default).rhs.getD k.dot
        (.terminal []) with
    | nonTerminal nt =>
      show StepOK g n acc (predictInto g ns pos nt acc)
      exact predictInto_spec g ns n pos nt acc hpos
    | terminal lit =>
      show StepOK g n acc
        (if pos < tokens.length ∧ (tokens.getD pos default).text = lit then
          ((add_item acc.1 (pos + 1) ⟨k.prodId, k.dot + 1, k.start⟩).1,
            acc.2 ||
              (add_item acc.1 (pos + 1) ⟨k.prodId, k.dot + 1, k.start⟩).2)
        else acc)
      by_cases hcond : pos < tokens.length ∧
          (tokens.getD pos default).text = lit
      · rw [if_pos hcond]
        exact scanStep_ok g n acc (pos + 1) _ hknew (by omega)
      · rw [if_neg hcond]
        exact StepOK.refl g n acc
    | placeholder nm typ =>
      show StepOK g n acc
        (if pos < tokens.length ∧
            is_builtin typ (tokens.getD pos default) = true then
          ((add_item acc.1 (pos + 1) ⟨k.prodId, k.dot + 1, k.start⟩).1,
            acc.2 ||
              (add_item acc.1 (pos + 1) ⟨k.prodId, k.dot + 1, k.start⟩).2)
        else predictInto g ns pos typ acc)
      by_cases hcond : pos < tokens.length ∧
          is_builtin typ (tokens.getD pos default) = true
      · rw [if_pos hcond]
        exact scanStep_ok g n acc (pos + 1) _ hknew (by omega)
      · rw [if_neg hcond]
        exact predictInto_spec g ns n pos typ acc hpos
  · rw [if_neg hdot]
    exact completeStep_spec g n pos k acc hpos

/-- One `while changed` pass is a well-behaved chart step starting from a
cleared flag; in particular a pass that reports `changed` strictly grew
the chart. -/
theorem passOnce_spec (g : Grammar) (ns : List String) (tokens : List Token)
    (n pos : Nat) (sets : Sets) (hpos : pos ≤ n) (htok : tokens.length = n) :
    StepOK g n (sets, false) (passOnce g ns tokens pos sets) := by
  by_cases hventry : ValidSets g n sets
  case neg => exact fun hv => absurd hv hventry
  unfold passOnce
  apply StepOK.foldl
  intro a k hkmem
  have hkv : ValidKey g n k := by
    by_cases hps : pos < sets.length
    · have hbmem : sets.getD pos [] ∈ sets := by
        rw [List.getD_eq_getElem _ _ hps]
        exact List.getElem_mem hps
      exact (hventry.2 _ hbmem).2 k hkmem
    · rw [List.getD_eq_default _ _ (by omega)] at hkmem
      cases hkmem
  exact processItem_spec g ns tokens n pos a k hkv hpos htok

/-- The `while changed` loop preserves the chart invariant. -/
theorem whileChanged_valid (g : Grammar) (ns : List String)
    (tokens : List Token) (n pos : Nat) (hpos : pos ≤ n)
    (htok : tokens.length = n) :
    ∀ (fuel : Nat) (sets : Sets), ValidSets g n sets →
      ValidSets g n (whileChanged g ns tokens pos fuel sets) := by
  intro fuel
  induction fuel with
  | zero => intro sets hv; exact hv
  | succ f ih =>
    intro sets hv
    have heq : whileChanged g ns tokens pos (f + 1) sets =
        if (passOnce g ns tokens pos sets).2 = true then
          whileChanged g ns tokens pos f (passOnce g ns tokens pos sets).1
        else (passOnce g ns tokens pos sets).1 := rfl
    rw [heq]
    have hspec := passOnce_spec g ns tokens n pos sets hpos htok hv
    by_cases hch : (passOnce g ns tokens pos sets).2 = true
    · rw [if_pos hch]
      exact ih _ hspec.2.1
    · rw [if_neg hch]
      exact hspec.2.1

/-- Past the key-count bound, extra fuel never changes the result of the
`while changed` loop: the loop has reached its fixed point. -/
theorem whileChanged_stable (g : Grammar) (ns : List String)
    (tokens : List Token) (n pos : Nat) (hpos : pos ≤ n)
    (htok : tokens.length = n) :
    ∀ (fuel extra : Nat) (sets : Sets), ValidSets g n sets →
      keyBound g n * (n + 1) < chartCount sets + fuel →
      whileChanged g ns tokens pos (fuel + extra) sets
        = whileChanged g ns tokens pos fuel sets := by
  intro fuel
  induction fuel with
  | zero =>
    intro extra sets hv hbig
    exfalso
    have := chartCount_le g n sets hv
    omega
  | succ f ih =>
    intro extra sets hv hbig
    have hfe : f + 1 + extra = (f + extra) + 1 := by omega
    rw [hfe]
    have heq1 : ∀ m, whileChanged g ns tokens pos (m + 1) sets =
        if (passOnce g ns tokens pos sets).2 = true then
          whileChanged g ns tokens pos m (passOnce g ns tokens pos sets).1
        else (passOnce g ns tokens pos sets).1 := fun m => rfl
    rw [heq1 (f + extra), heq1 f]
    have hspec := passOnce_spec g ns tokens n pos sets hpos htok hv
    by_cases hch : (passOnce g ns tokens pos sets).2 = true
    · rw [if_pos hch, if_pos hch]
      have hstrict : chartCount sets <
          chartCount (passOnce g ns tokens pos sets).1 := by
        rcases hspec.2.2.2.2 hch with h | h
        · cases h
        · exact h
      exact ih extra _ hspec.2.1 (by omega)
    · rw [if_neg hch, if_neg hch]

/-- The chart produced by initialization is valid. -/
theorem init_valid (g : Grammar) (ns : List String) (n : Nat)
    (start : String) :
    ValidSets g n
      ((prods_for g start).foldl
        (fun s pr =>
          add_nullable_items g ns ⟨pr.1, 0, 0⟩ 0
            (add_item s 0 ⟨pr.1, 0, 0⟩).1)
        (List.replicate (n + 1) [])) := by
  have hbase : ValidSets g n (List.replicate (n + 1) ([] : List ItemKey)) := by
    constructor
    · exact List.length_replicate _ _
    · intro s hs
      rw [List.eq_of_mem_replicate hs]
      exact ⟨List.nodup_nil, fun k hk => absurd hk (List.not_mem_nil k)⟩
  have hgen : ∀ (l : List (Nat × Prod)),
      (∀ x ∈ l, x.1 < g.productions.length) → ∀ s, ValidSets g n s →
      ValidSets g n (l.foldl
        (fun s pr =>
          add_nullable_items g ns ⟨pr.1, 0, 0⟩ 0
            (add_item s 0 ⟨pr.1, 0, 0⟩).1) s) := by
    intro l
    induction l with
    | nil => intro _ s hv; exact hv
    | cons x xs ih =>
      intro hl s hv
      have hx := hl x (List.mem_cons_self x xs)
      have hk : ValidKey g n ⟨x.1, 0, 0⟩ := ⟨hx, Nat.zero_le _, Nat.zero_le _⟩
      apply ih (fun y hy => hl y (List.mem_cons_of_mem x hy))
      exact (add_nullable_items_spec g ns n 0 ⟨x.1, 0, 0⟩ _).2.2
        (add_item_valid hv hk) hk
  exact hgen (prods_for g start)
    (fun x hx => prods_for_fst_lt g start x hx) _ hbase

/-- C8: for every grammar (nullable cycles and left recursion included)
and every token list, `recognize` terminates: every per-position
`while changed` loop reaches a fixed point within the fuel bound — items
are deduplicated over the finite key space `(prod_id, dot, start)`, so a
changing pass strictly grows the chart, whose size is bounded — and the
nullable-advancement loop terminates because its dot strictly increases
(it is fuel-bounded by the maximal rhs length).  Formally: giving the
recognizer any fuel beyond its bound changes nothing. -/
theorem C8_recognize_terminates (g : Grammar) (tokens : List Token)
    (start : String) (extra : Nat) :
    recognizeFuel g tokens start (loopFuel g tokens.length + extra)
      = recognizeFuel g tokens start (loopFuel g tokens.length) := by
  unfold recognizeFuel
  have hgen : ∀ (l : List Nat), (∀ p ∈ l, p ≤ tokens.length) →
      ∀ s, ValidSets g tokens.length s →
      l.foldl (fun s pos => whileChanged g (compute_nullable g) tokens pos
          (loopFuel g tokens.length + extra) s) s
        = l.foldl (fun s pos => whileChanged g (compute_nullable g) tokens pos
          (loopFuel g tokens.length) s) s := by
    intro l
    induction l with
    | nil => intro _ s _; rfl
    | cons p ps ih =>
      intro hl s hv
      have hp := hl p (List.mem_cons_self p ps)
      have hstep := whileChanged_stable g (compute_nullable g) tokens
        tokens.length p hp rfl (loopFuel g tokens.length) extra s hv
        (by unfold loopFuel; omega)
      show List.foldl _ (whileChanged _ _ _ _ (loopFuel g tokens.length + extra) s) ps
          = List.foldl _ (whileChanged _ _ _ _ (loopFuel g tokens.length) s) ps
      rw [hstep]
      exact ih (fun q hq => hl q (List.mem_cons_of_mem p hq)) _
        (whileChanged_valid g (compute_nullable g) tokens tokens.length p hp
          rfl _ _ hv)
  exact hgen (List.range (tokens.length + 1))
    (fun p hp => by have := List.mem_range.mp hp; omega) _
    (init_valid g (compute_nullable g) tokens.length start)

/-! ## Claim C7: the nullable-dependency graph and the cycle-detecting
DFS -/

/-- Any list element appears in the enumeration (any starting index). -/
theorem exists_mem_enumFrom {α : Type} (x : α) :
    ∀ (l : List α) (s : Nat), x ∈ l → ∃ i, (i, x) ∈ List.enumFrom s l := by
  intro l
  induction l with
  | nil => intro s h; cases h
  | cons a as ih =>
    intro s h
    rcases List.mem_cons.mp h with rfl | h'
    · exact ⟨s, by simp [List.enumFrom]⟩
    · rcases ih (s + 1) h' with ⟨i, hi⟩
      exact ⟨i, by simp [List.enumFrom, hi]⟩

/-- What membership in `prods_for` gives. -/
theorem mem_prods_for_facts (g : Grammar) (name : String) (pr : Nat × Prod)
    (h : pr ∈ prods_for g name) :
    pr.2 ∈ g.productions ∧ pr.2.lhs = name := by
  unfold prods_for at h
  have h1 := List.mem_filter.mp h
  refine ⟨List.snd_mem_of_mem_enum h1.1, ?_⟩
  simpa using h1.2

/-- Every production with the right lhs is listed by `prods_for`. -/
theorem prods_for_of_mem (g : Grammar) (name : String) (p : Prod)
    (hp : p ∈ g.productions) (hl : p.lhs = name) :
    ∃ i, (i, p) ∈ prods_for g name := by
  rcases exists_mem_enumFrom p g.productions 0 hp with ⟨i, hi⟩
  exact ⟨i, List.mem_filter.mpr ⟨hi, by simp [hl]⟩⟩

/-- Membership in `insertStr`. -/
theorem mem_insertStr {s : List String} {x y : String} :
    y ∈ insertStr s x ↔ y ∈ s ∨ y = x := by
  unfold insertStr
  by_cases h : x ∈ s
  · rw [if_pos h]
    constructor
    · exact Or.inl
    · rintro (hy | rfl)
      · exact hy
      · exact h
  · rw [if_neg h]; simp [List.mem_append]

/-- Membership in the rhs-gathering fold of `adjChildren`. -/
theorem mem_gatherRhs (rhs : List Sym) :
    ∀ (acc : List String) (w : String),
    (w ∈ rhs.foldl (fun acc s =>
        match s with
        | .nonTerminal nt => insertStr acc nt
        | .placeholder _ typ => insertStr acc typ
        | .terminal _ => acc) acc ↔
      w ∈ acc ∨ (Sym.nonTerminal w) ∈ rhs ∨
        ∃ n, (Sym.placeholder n w) ∈ rhs) := by
  induction rhs with
  | nil => intro acc w; simp
  | cons s rest ih =>
    intro acc w
    cases s with
    | terminal t =>
      simp only [List.foldl_cons]
      rw [ih]
      simp [List.mem_cons]
    | nonTerminal nt =>
      simp only [List.foldl_cons]
      rw [ih, mem_insertStr]
      simp only [List.mem_cons, Sym.nonTerminal.injEq]
      constructor
      · rintro ((hacc | rfl) | hnt | ⟨m, hm⟩)
        · exact Or.inl hacc
        · exact Or.inr (Or.inl (Or.inl rfl))
        · exact Or.inr (Or.inl (Or.inr hnt))
        · exact Or.inr (Or.inr ⟨m, Or.inr hm⟩)
      · rintro (hacc | (heq | hnt) | ⟨m, hm0 | hm⟩)
        · exact Or.inl (Or.inl hacc)
        · exact Or.inl (Or.inr heq)
        · exact Or.inr (Or.inl hnt)
        · cases hm0
        · exact Or.inr (Or.inr ⟨m, hm⟩)
    | placeholder n typ =>
      simp only [List.foldl_cons]
      rw [ih, mem_insertStr]
      simp only [List.mem_cons, Sym.placeholder.injEq]
      constructor
      · rintro ((hacc | rfl) | hnt | ⟨m, hm⟩)
        · exact Or.inl hacc
        · exact Or.inr (Or.inr ⟨n, Or.inl ⟨rfl, rfl⟩⟩)
        · exact Or.inr (Or.inl (Or.inr hnt))
        · exact Or.inr (Or.inr ⟨m, Or.inr hm⟩)
      · rintro (hacc | (h0 | hnt) | ⟨m, ⟨rfl, rfl⟩ | hm⟩)
        · exact Or.inl (Or.inl hacc)
        · cases h0
        · exact Or.inr (Or.inl hnt)
        · exact Or.inl (Or.inr rfl)
        · exact Or.inr (Or.inr ⟨m, hm⟩)

/-- Membership in the production fold of `adjChildren`. -/
theorem mem_childrenFold (ns : List String) :
    ∀ (prs : List (Nat × Prod)) (acc : List String) (w : String),
    (w ∈ prs.foldl (fun acc pr =>
        if pr.2.rhs.all (symNullable ns) then
          pr.2.rhs.foldl (fun acc s =>
            match s with
            | .nonTerminal nt => insertStr acc nt
            | .placeholder _ typ => insertStr acc typ
            | .terminal _ => acc) acc
        else acc) acc ↔
      w ∈ acc ∨ ∃ pr ∈ prs, pr.2.rhs.all (symNullable ns) = true ∧
        ((Sym.nonTerminal w) ∈ pr.2.rhs ∨
          ∃ n, (Sym.placeholder n w) ∈ pr.2.rhs)) := by
  intro prs
  induction prs with
  | nil => intro acc w; simp
  | cons pr prs ih =>
    intro acc w
    simp only [List.foldl_cons]
    rw [ih]
    by_cases hall : pr.2.rhs.all (symNullable ns) = true
    · rw [if_pos hall, mem_gatherRhs]
      simp only [List.exists_mem_cons_iff, hall, true_and]
      constructor
      · rintro ((hacc | hm) | htail)
        · exact Or.inl hacc
        · exact Or.inr (Or.inl hm)
        · exact Or.inr (Or.inr htail)
      · rintro (hacc | hm | htail)
        · exact Or.inl (Or.inl hacc)
        · exact Or.inl (Or.inr hm)
        · exact Or.inr htail
    · rw [if_neg hall]
      rw [List.all_eq_true] at hall
      simp [List.exists_mem_cons_iff, hall]

/-- The DFS adjacency agrees with the spec's nullable-dependency edge on
the graph's vertices. -/
theorem mem_adjChildren_iff (g : Grammar) (v w : String)
    (hv : v ∈ compute_nullable g) :
    w ∈ adjChildren g (compute_nullable g) v ↔ NullEdge g v w := by
  simp only [adjChildren]
  rw [List.mem_filter, mem_childrenFold]
  constructor
  · rintro ⟨h0 | ⟨pr, hpr, hall, hment⟩, hcont⟩
    · cases h0
    · have hfacts := mem_prods_for_facts g v pr hpr
      exact ⟨hv, pr.2, hfacts.1, hfacts.2, List.all_eq_true.mp hall, hment⟩
  · rintro ⟨_, p, hp, hl, hnull, hment⟩
    rcases prods_for_of_mem g v p hp hl with ⟨i, hi⟩
    have hw : w ∈ compute_nullable g := by
      rcases hment with hnt | ⟨n, hph⟩
      · have := hnull _ hnt
        exact List.elem_iff.mp this
      · have := hnull _ hph
        exact List.elem_iff.mp this
    refine ⟨Or.inr ⟨(i, p), hi, List.all_eq_true.mpr hnull, hment⟩, ?_⟩
    exact List.elem_iff.mpr hw

/-- Appending one edge to a path. -/
theorem PathE_snoc {E : String → String → Prop} {a b c : String}
    (h : PathE E a b) (hbc : E b c) : PathE E a c := by
  revert c
  induction h with
  | single hab => intro c hbc; exact .cons hab (.single hbc)
  | cons hab _ ih => intro c hbc; exact .cons hab (ih hbc)

/-- Paths are monotone in the edge relation. -/
theorem PathE_mono {E1 E2 : String → String → Prop}
    (himp : ∀ a b, E1 a b → E2 a b) {a b : String}
    (h : PathE E1 a b) : PathE E2 a b := by
  induction h with
  | single hab => exact .single (himp _ _ hab)
  | cons hab _ ih => exact .cons (himp _ _ hab) ih

/-- A path starts with an edge. -/
theorem PathE_head {E : String → String → Prop} {a b : String}
    (h : PathE E a b) : ∃ c, E a c := by
  cases h with
  | single hab => exact ⟨_, hab⟩
  | cons hab _ => exact ⟨_, hab⟩

/-- Unfolding of `dfsA` at nonzero fuel. -/
theorem dfsA_succ (adj : String → List String) (f : Nat) (v : String)
    (st : DfsSt) :
    dfsA adj (f + 1) v st =
      match dfsList (dfsA adj f) (adj v) ⟨v :: st.visiting, st.done⟩ with
      | (st', true) => (st', true)
      | (st', false) => (⟨st.visiting, v :: st'.done⟩, false) := rfl

/-- Unfolding of `dfsList` at a cons. -/
theorem dfsList_cons (recDfs : String → DfsSt → DfsSt × Bool) (w : String)
    (ws : List String) (st : DfsSt) :
    dfsList recDfs (w :: ws) st =
      if w ∈ st.done then dfsList recDfs ws st
      else if w ∈ st.visiting then (st, true)
      else match recDfs w st with
        | (st', true) => (st', true)
        | (st', false) => dfsList recDfs ws st' := rfl

/-- Unfolding of `dfsTop` at a cons. -/
theorem dfsTop_cons (adj : String → List String) (fuel : Nat) (s : String)
    (rest : List String) (st : DfsSt) :
    dfsTop adj fuel (s :: rest) st =
      if s ∈ st.done ∨ s ∈ st.visiting then dfsTop adj fuel rest st
      else match dfsA adj fuel s st with
        | (_, true) => true
        | (st', false) => dfsTop adj fuel rest st' := rfl

/-- When `dfsA` reports no cycle it restores the caller's visiting
stack verbatim. -/
theorem dfsA_restore (adj : String → List String) (fuel : Nat) (v : String)
    (st : DfsSt) (h : (dfsA adj fuel v st).2 = false) :
    (dfsA adj fuel v st).1.visiting = st.visiting := by
  cases fuel with
  | zero => rfl
  | succ f =>
    rw [dfsA_succ] at h ⊢
    revert h
    rcases hl : dfsList (dfsA adj f) (adj v) ⟨v :: st.visiting, st.done⟩
      with ⟨st', b⟩
    cases b
    · intro _; rfl
    · intro h; cases h

/-- Every element of a DFS visiting stack reaches the stack's head along
adjacency edges (or is the head). -/
theorem stack_path (adj : String → List String) (V : List String) :
    ∀ (s : List String), StackInv adj s → (∀ x ∈ s, x ∈ V) →
    ∀ v rest, s = v :: rest → ∀ w ∈ s,
      w = v ∨ PathE (AdjEdge adj V) w v := by
  intro s
  induction s with
  | nil => intro _ _ v rest h; cases h
  | cons a s' ih =>
    intro hstk hmem v rest heq w hw
    cases heq
    rcases List.mem_cons.mp hw with rfl | hw'
    · exact Or.inl rfl
    · cases s' with
      | nil => cases hw'
      | cons u s'' =>
        have hA : a ∈ adj u ∧ StackInv adj (u :: s'') := hstk
        have hedge : AdjEdge adj V u a :=
          ⟨hmem u (by simp), hA.1⟩
        rcases ih hA.2 (fun x hx => hmem x (List.mem_cons_of_mem _ hx))
            u s'' rfl w hw' with rfl | hpath
        · exact Or.inr (.single hedge)
        · exact Or.inr (PathE_snoc hpath hedge)

/-- If the neighbor loop reports a cycle, the adjacency graph has one
(generic in the recursive call). -/
theorem dfsList_sound (adj : String → List String) (V : List String)
    (recDfs : String → DfsSt → DfsSt × Bool)
    (hsub : ∀ v w, w ∈ adj v → w ∈ V)
    (hrecsound : ∀ w st, StackInv adj (w :: st.visiting) →
      (∀ x ∈ w :: st.visiting, x ∈ V) → (recDfs w st).2 = true →
      ∃ z, PathE (AdjEdge adj V) z z)
    (hrecrestore : ∀ w st, (recDfs w st).2 = false →
      (recDfs w st).1.visiting = st.visiting) :
    ∀ (ws : List String) (st : DfsSt) (v : String) (rest : List String),
      st.visiting = v :: rest → (∀ w ∈ ws, w ∈ adj v) →
      StackInv adj st.visiting → (∀ x ∈ st.visiting, x ∈ V) →
      (dfsList recDfs ws st).2 = true →
      ∃ z, PathE (AdjEdge adj V) z z := by
  intro ws
  induction ws with
  | nil => intro st v rest _ _ _ _ h; cases h
  | cons w ws ih =>
    intro st v rest hvis hws hstk hmem h
    rw [dfsList_cons] at h
    by_cases hd : w ∈ st.done
    · rw [if_pos hd] at h
      exact ih st v rest hvis (fun x hx => hws x (List.mem_cons_of_mem _ hx))
        hstk hmem h
    · rw [if_neg hd] at h
      by_cases hvm : w ∈ st.visiting
      · have hvV : v ∈ V := hmem v (by rw [hvis]; simp)
        have hedge : AdjEdge adj V v w := ⟨hvV, hws w (by simp)⟩
        rcases stack_path adj V st.visiting hstk hmem v rest hvis w hvm
          with rfl | hpath
        · exact ⟨w, .single hedge⟩
        · exact ⟨w, PathE_snoc hpath hedge⟩
      · rw [if_neg hvm] at h
        rcases hr : recDfs w st with ⟨st', b⟩
        rw [hr] at h
        cases b
        · have hvis' : st'.visiting = st.visiting := by
            have := hrecrestore w st (by rw [hr])
            rw [hr] at this; exact this
          exact ih st' v rest (by rw [hvis']; exact hvis)
            (fun x hx => hws x (List.mem_cons_of_mem _ hx))
            (by rw [hvis']; exact hstk) (by rw [hvis']; exact hmem) h
        · apply hrecsound w st _ _ (by rw [hr])
          · have : w ∈ adj v := hws w (by simp)
            rw [hvis]
            exact ⟨this, by rw [← hvis]; exact hstk⟩
          · intro x hx
            rcases List.mem_cons.mp hx with rfl | hx'
            · exact hsub v x (hws x (by simp))
            · exact hmem x hx'

/-- If `dfsA` reports a cycle, the adjacency graph has one. -/
theorem dfsA_sound (adj : String → List String) (V : List String)
    (hsub : ∀ v w, w ∈ adj v → w ∈ V) :
    ∀ (fuel : Nat) (v : String) (st : DfsSt),
      StackInv adj (v :: st.visiting) → (∀ x ∈ v :: st.visiting, x ∈ V) →
      (dfsA adj fuel v st).2 = true →
      ∃ z, PathE (AdjEdge adj V) z z := by
  intro fuel
  induction fuel with
  | zero => intro v st _ _ h; cases h
  | succ f ih =>
    intro v st hstk hmem h
    rw [dfsA_succ] at h
    rcases hl : dfsList (dfsA adj f) (adj v) ⟨v :: st.visiting, st.done⟩
      with ⟨st', b⟩
    rw [hl] at h
    cases b
    · cases h
    · exact dfsList_sound adj V (dfsA adj f) hsub ih
        (fun w st => dfsA_restore adj f w st)
        (adj v) ⟨v :: st.visiting, st.done⟩ v st.visiting rfl
        (fun w hw => hw) hstk hmem (by rw [hl])

/-- If the top-level DFS loop reports a cycle, the adjacency graph has
one. -/
theorem dfsTop_sound (adj : String → List String) (V : List String)
    (hsub : ∀ v w, w ∈ adj v → w ∈ V) (F : Nat) :
    ∀ (l : List String) (st : DfsSt), (∀ s ∈ l, s ∈ V) →
      st.visiting = [] → dfsTop adj F l st = true →
      ∃ z, PathE (AdjEdge adj V) z z := by
  intro l
  induction l with
  | nil => intro st _ _ h; cases h
  | cons s rest ih =>
    intro st hl hvis h
    rw [dfsTop_cons] at h
    by_cases hsk : s ∈ st.done ∨ s ∈ st.visiting
    · rw [if_pos hsk] at h
      exact ih st (fun x hx => hl x (List.mem_cons_of_mem _ hx)) hvis h
    · rw [if_neg hsk] at h
      rcases ha : dfsA adj F s st with ⟨st', b⟩
      rw [ha] at h
      cases b
      · have hvis' : st'.visiting = [] := by
          have := dfsA_restore adj F s st (by rw [ha])
          rw [ha] at this
          rw [this, hvis]
        exact ih st' (fun x hx => hl x (List.mem_cons_of_mem _ hx)) hvis' h
      · apply dfsA_sound adj V hsub F s st
        · rw [hvis]; trivial
        · intro x hx
          rw [hvis] at hx
          rcases List.mem_cons.mp hx with rfl | hx'
          · exact hl x (by simp)
          · cases hx'
        · rw [ha]

/-- A ranked list is closed under adjacency edges. -/
theorem ranked_closed (adj : String → List String) (V : List String) :
    ∀ (d : List String), Ranked adj d →
    ∀ a b, a ∈ d → AdjEdge adj V a b → b ∈ d := by
  intro d
  induction d with
  | nil => intro _ a b ha _; cases ha
  | cons u rest ih =>
    intro hR a b ha hE
    have hR' : (∀ w ∈ adj u, w ∈ rest) ∧ Ranked adj rest := hR
    rcases List.mem_cons.mp ha with rfl | ha'
    · exact List.mem_cons_of_mem _ (hR'.1 b hE.2)
    · exact List.mem_cons_of_mem _ (ih hR'.2 a b ha' hE)

/-- A ranked list is closed under adjacency paths. -/
theorem ranked_path_closed (adj : String → List String) (V : List String)
    (d : List String) (hR : Ranked adj d) :
    ∀ a b, PathE (AdjEdge adj V) a b → a ∈ d → b ∈ d := by
  intro a b hp
  induction hp with
  | single hab => intro ha; exact ranked_closed adj V d hR _ _ ha hab
  | cons hab _ ih =>
    intro ha; exact ih (ranked_closed adj V d hR _ _ ha hab)

/-- A duplicate-free ranked list carries no adjacency cycle. -/
theorem ranked_no_cycle (adj : String → List String) (V : List String) :
    ∀ (d : List String), Ranked adj d → d.Nodup →
    ∀ z, z ∈ d → PathE (AdjEdge adj V) z z → False := by
  intro d
  induction d with
  | nil => intro _ _ z hz; cases hz
  | cons u rest ih =>
    intro hR hnd z hz hp
    have hR' : (∀ w ∈ adj u, w ∈ rest) ∧ Ranked adj rest := hR
    rcases List.mem_cons.mp hz with rfl | hz'
    · have hu_not : z ∉ rest := (List.nodup_cons.mp hnd).1
      cases hp with
      | single hzz => exact hu_not (hR'.1 z hzz.2)
      | cons hzw hp' =>
        have hw := hR'.1 _ hzw.2
        exact hu_not (ranked_path_closed adj V rest hR'.2 _ _ hp' hw)
    · exact ih hR'.2 (List.nodup_cons.mp hnd).2 z hz' hp

/-- The freshness predicate of `freshCountV`, unfolded to membership. -/
theorem fresh_pred_iff (vis d : List String) (x : String) :
    ((!(vis.contains x || d.contains x)) = true) ↔ (x ∉ vis ∧ x ∉ d) := by
  constructor
  · intro h
    constructor <;> intro hmem
    · have : vis.contains x = true := List.elem_iff.mpr hmem
      rw [this] at h; simp at h
    · have : d.contains x = true := List.elem_iff.mpr hmem
      rw [this] at h; simp at h
  · rintro ⟨h1, h2⟩
    have hv : vis.contains x = false := by
      cases hcv : vis.contains x
      · rfl
      · exact absurd (List.elem_iff.mp hcv) h1
    have hd : d.contains x = false := by
      cases hcd : d.contains x
      · rfl
      · exact absurd (List.elem_iff.mp hcd) h2
    rw [hv, hd]; rfl

/-- A pointwise-stronger filter that loses at least one witness is
strictly shorter. -/
theorem length_filter_lt {α : Type} (p q : α → Bool)
    (himp : ∀ x, p x = true → q x = true) :
    ∀ (l : List α) (v : α), v ∈ l → q v = true → p v = false →
    (l.filter p).length < (l.filter q).length := by
  intro l
  induction l with
  | nil => intro v hv; cases hv
  | cons a l' ih =>
    intro v hv hq hp
    rcases List.mem_cons.mp hv with rfl | hv'
    · rw [List.filter_cons, List.filter_cons, if_neg (by simp [hp]),
        if_pos hq]
      simp only [List.length_cons]
      exact Nat.lt_succ_of_le
        (List.Sublist.length_le (List.monotone_filter_right l' himp))
    · rw [List.filter_cons, List.filter_cons]
      by_cases hpa : p a = true
      · rw [if_pos hpa, if_pos (himp a hpa)]
        simp only [List.length_cons]
        exact Nat.succ_lt_succ (ih v hv' hq hp)
      · rw [if_neg hpa]
        by_cases hqa : q a = true
        · rw [if_pos hqa]
          simp only [List.length_cons]
          exact Nat.lt_succ_of_lt (ih v hv' hq hp)
        · rw [if_neg hqa]
          exact ih v hv' hq hp

/-- Keeping the stack and extending the finished list cannot create
fresh vertices. -/
theorem fresh_mono (V : List String) (st st' : DfsSt)
    (hv : st'.visiting = st.visiting) (hd : st.done <:+ st'.done) :
    freshCountV V st' ≤ freshCountV V st := by
  unfold freshCountV
  apply List.Sublist.length_le
  apply List.monotone_filter_right
  intro a ha
  have ha' := (fresh_pred_iff st'.visiting st'.done a).mp ha
  apply (fresh_pred_iff st.visiting st.done a).mpr
  constructor
  · rw [← hv]; exact ha'.1
  · intro hmem; exact ha'.2 (hd.subset hmem)

/-- Pushing a fresh vertex strictly decreases the fresh count. -/
theorem fresh_push_lt (V : List String) (st : DfsSt) (v : String)
    (hvV : v ∈ V) (hvv : v ∉ st.visiting) (hvd : v ∉ st.done) :
    freshCountV V ⟨v :: st.visiting, st.done⟩ < freshCountV V st := by
  unfold freshCountV
  apply length_filter_lt
  · intro x hx
    have hx' := (fresh_pred_iff (v :: st.visiting) st.done x).mp hx
    apply (fresh_pred_iff st.visiting st.done x).mpr
    exact ⟨fun hmem => hx'.1 (List.mem_cons_of_mem _ hmem), hx'.2⟩
  · exact hvV
  · exact (fresh_pred_iff st.visiting st.done v).mpr ⟨hvv, hvd⟩
  · cases hpv : (!((v :: st.visiting).contains v || st.done.contains v))
    · rfl
    · exact absurd ((fresh_pred_iff _ _ _).mp hpv).1 (fun hc => hc (by simp))

/-- If the neighbor loop reports no cycle, it finishes every neighbor
and preserves the `done` invariants (generic in the recursive call). -/
theorem dfsList_complete (adj : String → List String) (V : List String)
    (recDfs : String → DfsSt → DfsSt × Bool) (F : Nat)
    (hrec : ∀ w st, freshCountV V st ≤ F → w ∈ V → w ∉ st.visiting →
      w ∉ st.done → DoneOK adj V st → (recDfs w st).2 = false →
      ((recDfs w st).1.visiting = st.visiting ∧
       st.done <:+ (recDfs w st).1.done ∧
       w ∈ (recDfs w st).1.done ∧
       DoneOK adj V (recDfs w st).1 ∧
       (∀ x ∈ (recDfs w st).1.done, x ∈ st.done ∨ x ∉ st.visiting))) :
    ∀ (ws : List String) (st : DfsSt), (∀ w ∈ ws, w ∈ V) →
      freshCountV V st ≤ F → DoneOK adj V st →
      (dfsList recDfs ws st).2 = false →
      ((dfsList recDfs ws st).1.visiting = st.visiting ∧
       st.done <:+ (dfsList recDfs ws st).1.done ∧
       (∀ w ∈ ws, w ∈ (dfsList recDfs ws st).1.done) ∧
       DoneOK adj V (dfsList recDfs ws st).1 ∧
       (∀ x ∈ (dfsList recDfs ws st).1.done,
         x ∈ st.done ∨ x ∉ st.visiting)) := by
  intro ws
  induction ws with
  | nil =>
    intro st _ _ hok _
    exact ⟨rfl, List.suffix_refl _,
      fun w hw => absurd hw (List.not_mem_nil w), hok,
      fun x hx => Or.inl hx⟩
  | cons w ws ih =>
    intro st hws hfr hok h
    rw [dfsList_cons] at h ⊢
    by_cases hd : w ∈ st.done
    · rw [if_pos hd] at h ⊢
      have post := ih st (fun x hx => hws x (List.mem_cons_of_mem _ hx))
        hfr hok h
      refine ⟨post.1, post.2.1, ?_, post.2.2.2.1, post.2.2.2.2⟩
      intro x hx
      rcases List.mem_cons.mp hx with rfl | hx'
      · exact post.2.1.subset hd
      · exact post.2.2.1 x hx'
    · rw [if_neg hd] at h ⊢
      by_cases hvm : w ∈ st.visiting
      · rw [if_pos hvm] at h; cases h
      · rw [if_neg hvm] at h ⊢
        rcases hr : recDfs w st with ⟨st', b⟩
        rw [hr] at h
        cases b
        · have post1 := hrec w st hfr (hws w (by simp)) hvm hd hok
            (by rw [hr])
          rw [hr] at post1
          have hfr' : freshCountV V st' ≤ F :=
            le_trans (fresh_mono V st st' post1.1 post1.2.1) hfr
          have post2 := ih st'
            (fun x hx => hws x (List.mem_cons_of_mem _ hx)) hfr'
            post1.2.2.2.1 h
          refine ⟨?_, ?_, ?_, post2.2.2.2.1, ?_⟩
          · exact post2.1.trans post1.1
          · exact post1.2.1.trans post2.2.1
          · intro x hx
            rcases List.mem_cons.mp hx with rfl | hx'
            · exact post2.2.1.subset post1.2.2.1
            · exact post2.2.2.1 x hx'
          · intro x hx
            rcases post2.2.2.2.2 x hx with hxd | hxv
            · rcases post1.2.2.2.2 x hxd with h1 | h2
              · exact Or.inl h1
              · exact Or.inr h2
            · rw [post1.1] at hxv
              exact Or.inr hxv
        · cases h

/-- If `dfsA` reports no cycle, it finishes its vertex and preserves the
`done` invariants. -/
theorem dfsA_complete (adj : String → List String) (V : List String)
    (hsub : ∀ v w, w ∈ adj v → w ∈ V) :
    ∀ (fuel : Nat) (v : String) (st : DfsSt),
      freshCountV V st ≤ fuel → v ∈ V → v ∉ st.visiting → v ∉ st.done →
      DoneOK adj V st → (dfsA adj fuel v st).2 = false →
      ((dfsA adj fuel v st).1.visiting = st.visiting ∧
       st.done <:+ (dfsA adj fuel v st).1.done ∧
       v ∈ (dfsA adj fuel v st).1.done ∧
       DoneOK adj V (dfsA adj fuel v st).1 ∧
       (∀ x ∈ (dfsA adj fuel v st).1.done,
         x ∈ st.done ∨ x ∉ st.visiting)) := by
  intro fuel
  induction fuel with
  | zero =>
    intro v st hfr hvV hvv hvd _ _
    exfalso
    have hv : v ∈ V.filter
        (fun x => !(st.visiting.contains x || st.done.contains x)) :=
      List.mem_filter.mpr ⟨hvV, (fresh_pred_iff _ _ _).mpr ⟨hvv, hvd⟩⟩
    have hpos : 0 < freshCountV V st := by
      unfold freshCountV
      exact List.length_pos.mpr
        (fun hnil => by rw [hnil] at hv; cases hv)
    omega
  | succ f ih =>
    intro v st hfr hvV hvv hvd hok h
    rw [dfsA_succ] at h ⊢
    rcases hl : dfsList (dfsA adj f) (adj v) ⟨v :: st.visiting, st.done⟩
      with ⟨stL, b⟩
    rw [hl] at h
    cases b
    · have hfr1 : freshCountV V ⟨v :: st.visiting, st.done⟩ ≤ f := by
        have := fresh_push_lt V st v hvV hvv hvd
        omega
      have hok1 : DoneOK adj V (⟨v :: st.visiting, st.done⟩ : DfsSt) := hok
      have postL := dfsList_complete adj V (dfsA adj f) f ih (adj v)
        ⟨v :: st.visiting, st.done⟩ (fun w hw => hsub v w hw) hfr1 hok1
        (by rw [hl])
      rw [hl] at postL
      have hvnotL : v ∉ stL.done := by
        intro hvL
        rcases postL.2.2.2.2 v hvL with h1 | h2
        · exact hvd h1
        · exact h2 (by simp)
      refine ⟨rfl, ?_, ?_, ?_, ?_⟩
      · exact postL.2.1.trans (List.suffix_cons v stL.done)
      · exact List.mem_cons_self v stL.done
      · refine ⟨⟨?_, postL.2.2.2.1.1⟩, ?_, ?_⟩
        · intro w hw; exact postL.2.2.1 w hw
        · exact List.nodup_cons.mpr ⟨hvnotL, postL.2.2.2.1.2.1⟩
        · intro x hx
          rcases List.mem_cons.mp hx with rfl | hx'
          · exact hvV
          · exact postL.2.2.2.1.2.2 x hx'
      · intro x hx
        rcases List.mem_cons.mp hx with rfl | hx'
        · exact Or.inr hvv
        · rcases postL.2.2.2.2 x hx' with h1 | h2
          · exact Or.inl h1
          · exact Or.inr (fun hxv => h2 (List.mem_cons_of_mem _ hxv))
    · cases h

/-- If the top-level DFS loop reports no cycle, no adjacency cycle
passes through a pending or finished vertex. -/
theorem dfsTop_complete (adj : String → List String) (V : List String)
    (hsub : ∀ v w, w ∈ adj v → w ∈ V) (F : Nat) :
    ∀ (l : List String) (st : DfsSt), (∀ s ∈ l, s ∈ V) →
      st.visiting = [] → freshCountV V st ≤ F → DoneOK adj V st →
      dfsTop adj F l st = false →
      ∀ z, PathE (AdjEdge adj V) z z → z ∈ l ∨ z ∈ st.done → False := by
  intro l
  induction l with
  | nil =>
    intro st _ _ _ hok _ z hp hz
    rcases hz with hz | hz
    · cases hz
    · exact ranked_no_cycle adj V st.done hok.1 hok.2.1 z hz hp
  | cons s rest ih =>
    intro st hl hvis hfr hok h z hp hz
    rw [dfsTop_cons] at h
    by_cases hsk : s ∈ st.done ∨ s ∈ st.visiting
    · rw [if_pos hsk] at h
      have hsd : s ∈ st.done := by
        rcases hsk with h1 | h2
        · exact h1
        · rw [hvis] at h2; cases h2
      apply ih st (fun x hx => hl x (List.mem_cons_of_mem _ hx)) hvis hfr
        hok h z hp
      rcases hz with hz | hz
      · rcases List.mem_cons.mp hz with rfl | hz'
        · exact Or.inr hsd
        · exact Or.inl hz'
      · exact Or.inr hz
    · rw [if_neg hsk] at h
      push_neg at hsk
      rcases ha : dfsA adj F s st with ⟨st', b⟩
      rw [ha] at h
      cases b
      · have post := dfsA_complete adj V hsub F s st hfr (hl s (by simp))
          hsk.2 hsk.1 hok (by rw [ha])
        rw [ha] at post
        apply ih st' (fun x hx => hl x (List.mem_cons_of_mem _ hx))
          (by rw [post.1, hvis])
          (le_trans (fresh_mono V st st' post.1 post.2.1) hfr)
          post.2.2.2.1 h z hp
        rcases hz with hz | hz
        · rcases List.mem_cons.mp hz with rfl | hz'
          · exact Or.inr post.2.2.1
          · exact Or.inl hz'
        · exact Or.inr (post.2.1.subset hz)
      · cases h

/-- The source's cycle-detecting DFS is exactly the spec's
nullable-dependency cycle condition. -/
theorem has_infinite_loop_iff_cycle (g : Grammar) :
    has_infinite_loop g = true ↔ HasNullCycle g := by
  have hsub : ∀ v w, w ∈ adjChildren g (compute_nullable g) v →
      w ∈ compute_nullable g := by
    intro v w hw
    simp only [adjChildren] at hw
    exact List.elem_iff.mp (List.mem_filter.mp hw).2
  have hbridgeA : ∀ a b,
      AdjEdge (adjChildren g (compute_nullable g)) (compute_nullable g) a b →
      NullEdge g a b := by
    intro a b hab
    exact (mem_adjChildren_iff g a b hab.1).mp hab.2
  have hbridgeB : ∀ a b, NullEdge g a b →
      AdjEdge (adjChildren g (compute_nullable g)) (compute_nullable g)
        a b := by
    intro a b hab
    exact ⟨hab.1, (mem_adjChildren_iff g a b hab.1).mpr hab⟩
  constructor
  · intro h
    simp only [has_infinite_loop] at h
    cases hne : (compute_nullable g).isEmpty
    · rw [hne] at h
      simp only [Bool.false_eq_true, if_false] at h
      rcases dfsTop_sound (adjChildren g (compute_nullable g))
          (compute_nullable g) hsub ((compute_nullable g).length + 1)
          (compute_nullable g) ⟨[], []⟩ (fun s hs => hs) rfl h
        with ⟨z, hz⟩
      exact ⟨z, PathE_mono hbridgeA hz⟩
    · rw [hne] at h
      simp at h
  · intro h
    cases hc : has_infinite_loop g
    · exfalso
      rcases h with ⟨z, hz⟩
      have hzV : z ∈ compute_nullable g := by
        rcases PathE_head hz with ⟨c, hc'⟩
        exact hc'.1
      simp only [has_infinite_loop] at hc
      cases hne : (compute_nullable g).isEmpty
      · rw [hne] at hc
        simp only [Bool.false_eq_true, if_false] at hc
        have hfr : freshCountV (compute_nullable g) ⟨[], []⟩ ≤
            (compute_nullable g).length + 1 := by
          have h1 : freshCountV (compute_nullable g) ⟨[], []⟩ =
              (List.filter
                (fun x => !(([] : List String).contains x ||
                  ([] : List String).contains x))
                (compute_nullable g)).length := rfl
          have h2 := List.length_filter_le
            (fun x => !(([] : List String).contains x ||
              ([] : List String).contains x)) (compute_nullable g)
          rw [h1]
          omega
        exact dfsTop_complete (adjChildren g (compute_nullable g))
          (compute_nullable g) hsub ((compute_nullable g).length + 1)
          (compute_nullable g) ⟨[], []⟩ (fun s hs => hs) rfl hfr
          ⟨trivial, List.nodup_nil, fun x hx => absurd hx (List.not_mem_nil x)⟩
          hc z (PathE_mono hbridgeB hz) (Or.inl hzV)
      · have hnil := List.isEmpty_iff.mp hne
        rw [hnil] at hzV
        cases hzV
    · rfl

/-- C7: engine construction rejects the grammar with
`InfiniteNullableLoop` exactly when the nullable-dependency graph (an
edge `A → B` whenever a production of the nullable name `A` has an
entirely nullable rhs mentioning `B` as a nonterminal or placeholder
type) has a directed cycle; and the construction-time grammar errors
(`InvalidDokedef`, `InfiniteNullableLoop`) are never produced by
`parse`. -/
theorem C7_infinite_nullable_loop_iff :
    (∀ rs : List Rule,
      (from_dokedef_rules rs = .error .infiniteNullableLoop ↔
        HasNullCycle (grammarFromRules (rulesApplyDefault rs)))) ∧
    (∀ (g : Grammar) (input : List Char) (start : String) (fuel : Nat),
      parseInput g input start fuel ≠ .ok (.error .invalidDokedef) ∧
      parseInput g input start fuel ≠ .ok (.error .infiniteNullableLoop)) := by
  constructor
  · intro rs
    show (if has_infinite_loop (grammarFromRules (rulesApplyDefault rs)) =
          true
        then (Except.error DokErr.infiniteNullableLoop : Except DokErr Grammar)
        else Except.ok (grammarFromRules (rulesApplyDefault rs))) =
        Except.error DokErr.infiniteNullableLoop ↔
      HasNullCycle (grammarFromRules (rulesApplyDefault rs))
    by_cases hc : has_infinite_loop (grammarFromRules (rulesApplyDefault rs))
      = true
    · rw [if_pos hc]
      exact ⟨fun _ => (has_infinite_loop_iff_cycle _).mp hc, fun _ => rfl⟩
    · rw [if_neg hc]
      constructor
      · intro h
        exact absurd h (by simp)
      · intro hcyc
        exact absurd ((has_infinite_loop_iff_cycle _).mpr hcyc) hc
  · intro g input start fuel
    constructor <;>
    · simp only [parseInput]
      rcases try_accept g (tokenize input)
          (recognize g (tokenize input) start) start with e | u
      · simp
      · rcases build_parse_tree g (tokenize input)
            (recognize g (tokenize input) start) start fuel with p | ot
        · simp
        · rcases ot with _ | tree <;> simp

end Dokearley
